import Mathlib

/-!
Verification of the reference arithmetic coding implementation
(`arithmeticcoding.py`, `adaptive-arithmetic-compress.py`,
`adaptive-arithmetic-decompress.py`, `ppmmodel.py`, `ppm-compress.py`).

The Python sources are shallowly embedded: Python integers are `Int`
(or `Nat` where the values in question are provably non-negative,
noted at each definition), Python floor division `//` is `Int.fdiv`
on `Int` and `Nat.div` on `Nat` (these agree with Python on the
values that occur), exceptions are `Except PyErr`, and objects that
mutate are threaded explicitly (a method that both returns a value
and mutates returns a pair).
-/

/-- The Python exceptions raised by the sources, one constructor per
`raise` site (the doc comment of each constructor is the exception
class and message used in the source). -/
inductive PyErr where
  /-- ValueError with message: State size out of range -/
  | stateSizeOutOfRange
  /-- AssertionError with message: Low or high out of range -/
  | lowHighOutOfRange
  /-- AssertionError with message: Range out of range -/
  | rangeOutOfRange
  /-- ValueError with message: Symbol has zero frequency -/
  | zeroFrequency
  /-- ValueError with message: Cannot code symbol because total is too large
  (encoder), or Cannot decode symbol because total is too large (decoder) -/
  | totalTooLarge
  /-- ValueError with message: Symbol out of range -/
  | symbolOutOfRange
  /-- ValueError with message: At least 1 symbol needed -/
  | atLeastOneSymbol
  /-- ValueError with message: Negative frequency -/
  | negativeFrequency
  /-- a bare Python assert statement failed -/
  | assertFailed
  /-- AssertionError with message: Non-positive symbol limit -/
  | nonPositiveSymbolLimit
  /-- AssertionError with message: ValueError expected -/
  | valueErrorExpected
  /-- AssertionError with message: Negative symbol frequency -/
  | negativeSymbolFrequency
  /-- AssertionError with message: Negative total frequency -/
  | negativeTotalFrequency
  /-- AssertionError with message: Symbol low cumulative frequency out of range -/
  | lowCumulativeOutOfRange
  /-- AssertionError with message: Symbol high cumulative frequency out of range -/
  | highCumulativeOutOfRange
  /-- AssertionError with message: Code out of range -/
  | codeOutOfRange
  /-- ValueError with message: Number of symbols must be positive -/
  | numSymbolsNotPositive
  /-- ValueError() raised by PpmModel with no message -/
  | ppmValueError
  /-- ValueError with message: Argument must be 0 or 1 -/
  | bitOutOfRange
  /-- NotImplementedError (abstract method or unsupported mutation) -/
  | notImplemented
  /-- TypeError raised by the Python runtime (wrong call arity) -/
  | typeError
  /-- IndexError raised by the Python runtime (list index out of range) -/
  | indexError
  /-- AttributeError raised by the Python runtime (attribute access on None) -/
  | attributeError
deriving DecidableEq, Repr

/-- Whether a `PyErr` is an AssertionError (as opposed to ValueError,
NotImplementedError or TypeError); `assertFailed` stands for a bare
`assert`, which also raises AssertionError. -/
def PyErr.isAssertionError : PyErr → Bool
  | .lowHighOutOfRange | .rangeOutOfRange | .assertFailed
  | .nonPositiveSymbolLimit | .valueErrorExpected
  | .negativeSymbolFrequency | .negativeTotalFrequency
  | .lowCumulativeOutOfRange | .highCumulativeOutOfRange
  | .codeOutOfRange => true
  | _ => false

abbrev PyResult (α : Type) : Type := Except PyErr α

instance {ε α : Type} [DecidableEq ε] [DecidableEq α] : DecidableEq (Except ε α) := fun x y =>
  match x, y with
  | .ok a, .ok b =>
    if h : a = b then .isTrue (by rw [h]) else .isFalse (by simp [h])
  | .error a, .error b =>
    if h : a = b then .isTrue (by rw [h]) else .isFalse (by simp [h])
  | .ok _, .error _ => .isFalse (by simp)
  | .error _, .ok _ => .isFalse (by simp)

/-! ## Bit-oriented I/O streams (arithmeticcoding.py lines 519-602) -/

/-- BitInputStream (lines 523-566).  The underlying byte input stream is
embedded as the list of bytes not yet consumed; `input.read(1)` pops the
head.  `currentbyte` is in `[0x00, 0xFF]`, or `-1` once end of stream is
reached, exactly as the source comments state. -/
structure BitInputStream where
  input : List Nat
  currentbyte : Int
  numbitsremaining : Nat
deriving DecidableEq, Repr

/-- BitInputStream construction (lines 526-532): `currentbyte = 0`,
`numbitsremaining = 0`. -/
def BitInputStream.init (inp : List Nat) : BitInputStream :=
  { input := inp, currentbyte := 0, numbitsremaining := 0 }

/-- BitInputStream.read (lines 537-549).  Returns `-1` at end of stream,
else the next bit (0 or 1), plus the mutated stream.  The bit extraction
`(self.currentbyte >> self.numbitsremaining) & 1` only runs when
`currentbyte >= 0`, so it is computed on `currentbyte.toNat` (exact for
every reachable state).  The `assert self.numbitsremaining > 0` cannot
fail (the counter is 8 right after a refill and was positive otherwise),
so it has no error branch here. -/
def BitInputStream.read (s : BitInputStream) : Int × BitInputStream :=
  if s.currentbyte = -1 then (-1, s)
  else if s.numbitsremaining = 0 then
    match s.input with
    | [] => (-1, { s with currentbyte := -1 })
    | b :: rest =>
      (((b >>> 7) &&& 1 : Nat),
        { input := rest, currentbyte := (b : Int), numbitsremaining := 7 })
  else
    (((s.currentbyte.toNat >>> (s.numbitsremaining - 1)) &&& 1 : Nat),
      { s with numbitsremaining := s.numbitsremaining - 1 })

/-- BitOutputStream (lines 573-592).  The underlying byte output stream
is embedded as the list of bytes written so far. -/
structure BitOutputStream where
  output : List Nat
  currentbyte : Nat
  numbitsfilled : Nat
deriving DecidableEq, Repr

/-- BitOutputStream.write (lines 583-592): raises ValueError unless the
bit is 0 or 1; flushes a byte every 8 bits. -/
def BitOutputStream.write (s : BitOutputStream) (b : Nat) : PyResult BitOutputStream :=
  if b ≠ 0 ∧ b ≠ 1 then .error .bitOutOfRange
  else
    let cb := (s.currentbyte <<< 1) ||| b
    if s.numbitsfilled + 1 = 8 then
      .ok { output := s.output ++ [cb], currentbyte := 0, numbitsfilled := 0 }
    else
      .ok { s with currentbyte := cb, numbitsfilled := s.numbitsfilled + 1 }

/-! ## Frequency tables (arithmeticcoding.py lines 226-515) -/

/-- FlatFrequencyTable (lines 270-321): immutable, every symbol has
frequency 1. -/
structure FlatFrequencyTable where
  numsymbols : Int
deriving DecidableEq, Repr

/-- FlatFrequencyTable constructor (lines 273-276): raises unless the
number of symbols is positive. -/
def FlatFrequencyTable.init (numsyms : Int) : PyResult FlatFrequencyTable :=
  if numsyms < 1 then .error .numSymbolsNotPositive
  else .ok { numsymbols := numsyms }

/-- FlatFrequencyTable._check_symbol (lines 307-309). -/
def FlatFrequencyTable.check_symbol (t : FlatFrequencyTable) (symbol : Int) : PyResult Unit :=
  if 0 ≤ symbol ∧ symbol < t.numsymbols then .ok () else .error .symbolOutOfRange

/-- FlatFrequencyTable.get (lines 283-285): always 1 for a valid symbol. -/
def FlatFrequencyTable.get (t : FlatFrequencyTable) (symbol : Int) : PyResult Int := do
  t.check_symbol symbol
  pure 1

/-- FlatFrequencyTable.get_total (lines 289-290). -/
def FlatFrequencyTable.get_total (t : FlatFrequencyTable) : Int :=
  t.numsymbols

/-- FlatFrequencyTable.get_low (lines 294-296). -/
def FlatFrequencyTable.get_low (t : FlatFrequencyTable) (symbol : Int) : PyResult Int := do
  t.check_symbol symbol
  pure symbol

/-- FlatFrequencyTable.get_high (lines 301-303). -/
def FlatFrequencyTable.get_high (t : FlatFrequencyTable) (symbol : Int) : PyResult Int := do
  t.check_symbol symbol
  pure (symbol + 1)

/-- SimpleFrequencyTable (lines 328-438): a list of per-symbol
frequencies, the running total, and the lazily built cumulative-sum
cache (`none` when invalid, exactly the source's `None`). -/
structure SimpleFrequencyTable where
  frequencies : List Int
  total : Int
  cumulative : Option (List Int)
deriving DecidableEq, Repr

/-- SimpleFrequencyTable constructor from a sequence of frequencies
(lines 336-356): copies the list, rejects an empty list and negative
entries, sets `total` to the sum and leaves the cache unset. -/
def SimpleFrequencyTable.fromList (freqs : List Int) : PyResult SimpleFrequencyTable :=
  if freqs.length < 1 then .error .atLeastOneSymbol
  else if freqs.any (fun f => f < 0) then .error .negativeFrequency
  else .ok { frequencies := freqs, total := freqs.sum, cumulative := none }

/-- SimpleFrequencyTable constructor from a FlatFrequencyTable
(lines 336-341, the `isinstance(freqs, FrequencyTable)` branch):
`[freqs.get(i) for i in range(numsym)]`, and `FlatFrequencyTable.get`
returns 1 for every in-range symbol. -/
def SimpleFrequencyTable.ofFlat (f : FlatFrequencyTable) : PyResult SimpleFrequencyTable :=
  SimpleFrequencyTable.fromList ((List.range f.numsymbols.toNat).map (fun _ => (1 : Int)))

/-- SimpleFrequencyTable.get_symbol_limit (lines 360-361). -/
def SimpleFrequencyTable.get_symbol_limit (t : SimpleFrequencyTable) : Int :=
  (t.frequencies.length : Int)

/-- SimpleFrequencyTable._check_symbol (lines 427-429). -/
def SimpleFrequencyTable.check_symbol (t : SimpleFrequencyTable) (symbol : Int) : PyResult Unit :=
  if 0 ≤ symbol ∧ symbol < (t.frequencies.length : Int) then .ok () else .error .symbolOutOfRange

/-- SimpleFrequencyTable.get (lines 365-367). -/
def SimpleFrequencyTable.get (t : SimpleFrequencyTable) (symbol : Int) : PyResult Int := do
  t.check_symbol symbol
  pure (t.frequencies.getD symbol.toNat 0)

/-- SimpleFrequencyTable.set (lines 372-380).  Returns the result and
the table state after the call; every `raise` happens before any field
is written, so the error branches return the table unchanged.  The
`assert temp >= 0` is the source's line 377. -/
def SimpleFrequencyTable.set (t : SimpleFrequencyTable) (symbol freq : Int) :
    PyResult Unit × SimpleFrequencyTable :=
  match t.check_symbol symbol with
  | .error e => (.error e, t)
  | .ok _ =>
    if freq < 0 then (.error .negativeFrequency, t)
    else
      let temp := t.total - t.frequencies.getD symbol.toNat 0
      if temp < 0 then (.error .assertFailed, t)
      else
        (.ok (), { frequencies := t.frequencies.set symbol.toNat freq,
                   total := temp + freq, cumulative := none })

/-- SimpleFrequencyTable.increment (lines 384-388). -/
def SimpleFrequencyTable.increment (t : SimpleFrequencyTable) (symbol : Int) :
    PyResult Unit × SimpleFrequencyTable :=
  match t.check_symbol symbol with
  | .error e => (.error e, t)
  | .ok _ =>
    (.ok (), { frequencies := t.frequencies.set symbol.toNat (t.frequencies.getD symbol.toNat 0 + 1),
               total := t.total + 1, cumulative := none })

/-- SimpleFrequencyTable.get_total (lines 393-394). -/
def SimpleFrequencyTable.get_total (t : SimpleFrequencyTable) : Int :=
  t.total

/-- SimpleFrequencyTable._init_cumulative (lines 416-423): the list of
prefix sums of `frequencies`, starting with 0.  The source's
`assert sum == self.total` compares the last prefix sum to `total`. -/
def SimpleFrequencyTable.init_cumulative (t : SimpleFrequencyTable) :
    PyResult SimpleFrequencyTable :=
  let cumul := t.frequencies.foldl (fun acc freq => acc ++ [acc.getLastD 0 + freq]) [0]
  if cumul.getLastD 0 ≠ t.total then .error .assertFailed
  else .ok { t with cumulative := some cumul }

/-- SimpleFrequencyTable.get_low (lines 399-403): checks the symbol,
rebuilds the cache if it is unset, and reads `cumulative[symbol]`. -/
def SimpleFrequencyTable.get_low (t : SimpleFrequencyTable) (symbol : Int) :
    PyResult Int × SimpleFrequencyTable :=
  match t.check_symbol symbol with
  | .error e => (.error e, t)
  | .ok _ =>
    match t.cumulative with
    | none =>
      match t.init_cumulative with
      | .error e => (.error e, t)
      | .ok t' => (.ok ((t'.cumulative.getD []).getD symbol.toNat 0), t')
    | some cumul => (.ok (cumul.getD symbol.toNat 0), t)

/-- SimpleFrequencyTable.get_high (lines 408-412): like `get_low` but
reads `cumulative[symbol + 1]`. -/
def SimpleFrequencyTable.get_high (t : SimpleFrequencyTable) (symbol : Int) :
    PyResult Int × SimpleFrequencyTable :=
  match t.check_symbol symbol with
  | .error e => (.error e, t)
  | .ok _ =>
    match t.cumulative with
    | none =>
      match t.init_cumulative with
      | .error e => (.error e, t)
      | .ok t' => (.ok ((t'.cumulative.getD []).getD (symbol.toNat + 1) 0), t')
    | some cumul => (.ok (cumul.getD (symbol.toNat + 1) 0), t)

/-! ## CheckedFrequencyTable (arithmeticcoding.py lines 444-515)

The wrapper works over any duck-typed frequency table object, so the
wrapped table is embedded as a record of query methods (each of which
may raise, like any Python method). -/

/-- An arbitrary (possibly misbehaving) frequency table implementation,
as seen through the `FrequencyTable` interface of lines 232-264. -/
structure RawTable where
  get_symbol_limit : PyResult Int
  get : Int → PyResult Int
  get_total : PyResult Int
  get_low : Int → PyResult Int
  get_high : Int → PyResult Int

/-- CheckedFrequencyTable.get_symbol_limit (lines 451-455). -/
def CheckedFrequencyTable.get_symbol_limit (t : RawTable) : PyResult Int := do
  let result ← t.get_symbol_limit
  if result ≤ 0 then .error .nonPositiveSymbolLimit
  else pure result

/-- CheckedFrequencyTable._is_symbol_in_range (lines 514-515). -/
def CheckedFrequencyTable.is_symbol_in_range (t : RawTable) (symbol : Int) : PyResult Bool := do
  let limit ← CheckedFrequencyTable.get_symbol_limit t
  pure (decide (0 ≤ symbol ∧ symbol < limit))

/-- CheckedFrequencyTable.get (lines 458-464). -/
def CheckedFrequencyTable.get (t : RawTable) (symbol : Int) : PyResult Int := do
  let result ← t.get symbol
  let inRange ← CheckedFrequencyTable.is_symbol_in_range t symbol
  if ¬ inRange then .error .valueErrorExpected
  else if result < 0 then .error .negativeSymbolFrequency
  else pure result

/-- CheckedFrequencyTable.get_total (lines 467-471). -/
def CheckedFrequencyTable.get_total (t : RawTable) : PyResult Int := do
  let result ← t.get_total
  if result < 0 then .error .negativeTotalFrequency
  else pure result

/-- CheckedFrequencyTable.get_low (lines 474-483). -/
def CheckedFrequencyTable.get_low (t : RawTable) (symbol : Int) : PyResult Int := do
  let inRange ← CheckedFrequencyTable.is_symbol_in_range t symbol
  if inRange then
    let low ← t.get_low symbol
    let high ← t.get_high symbol
    let total ← t.get_total
    if ¬ (0 ≤ low ∧ low ≤ high ∧ high ≤ total) then .error .lowCumulativeOutOfRange
    else pure low
  else do
    let _ ← t.get_low symbol
    .error .valueErrorExpected

/-- CheckedFrequencyTable.get_high (lines 486-495). -/
def CheckedFrequencyTable.get_high (t : RawTable) (symbol : Int) : PyResult Int := do
  let inRange ← CheckedFrequencyTable.is_symbol_in_range t symbol
  if inRange then
    let low ← t.get_low symbol
    let high ← t.get_high symbol
    let total ← t.get_total
    if ¬ (0 ≤ low ∧ low ≤ high ∧ high ≤ total) then .error .highCumulativeOutOfRange
    else pure high
  else do
    let _ ← t.get_high symbol
    .error .valueErrorExpected

/-! ## Arithmetic coder core (arithmeticcoding.py lines 13-113)

`low`, `high` and the frequency values consumed by `update` are
embedded as `Nat`: `update` is invoked (only) through
`ArithmeticEncoder.write` and `ArithmeticDecoder.read`, which always
pass a `CheckedFrequencyTable`, and the checked queries raise unless
`0 <= low <= high <= total`, so the values that reach `update` are
naturals; likewise the state check of `update` raises unless
`low & state_mask == low` and `high & state_mask == high`.
Floor division on these non-negative values is `Nat.div`, which agrees
with Python's `//`. -/

/-- ArithmeticCoderBase configuration (lines 31-44): `full_range = 1 << numbits`. -/
def full_range (numbits : Nat) : Nat := 1 <<< numbits

/-- The top bit at width `numbits` (line 35). -/
def half_range (numbits : Nat) : Nat := full_range numbits >>> 1

/-- The second highest bit at width `numbits` (line 37); zero when `numbits = 1`. -/
def quarter_range (numbits : Nat) : Nat := half_range numbits >>> 1

/-- Minimum range (high+1-low) during coding (line 39). -/
def minimum_range (numbits : Nat) : Nat := quarter_range numbits + 2

/-- Maximum allowed frequency total at all times during coding (line 42). -/
def maximum_total (numbits : Nat) : Nat := minimum_range numbits

/-- Bit mask of `numbits` ones (line 44). -/
def state_mask (numbits : Nat) : Nat := full_range numbits - 1

/-- The frequency-table queries `update` and `ArithmeticDecoder.read`
perform on the checked frequency table they are given (total, per-symbol
cumulative bounds, symbol limit); each query may raise.  Values are
naturals because the checked wrapper validates them (see above). -/
structure FreqsView where
  get_symbol_limit : PyResult Nat
  get_total : PyResult Nat
  get_low : Nat → PyResult Nat
  get_high : Nat → PyResult Nat

/-- The shared coder state (lines 46-50): `low` and `high`, plus the
subclass state `ext` (the encoder's pending output and underflow
counter, or the decoder's code register and input stream) that the
`shift`/`underflow` callbacks operate on. -/
structure CoderState (σ : Type) where
  low : Nat
  high : Nat
  ext : σ
deriving DecidableEq, Repr

/-- The two abstract methods of ArithmeticCoderBase (lines 106-112),
concretized by the encoder and the decoder.  `shift` receives the
current `low` (the encoder reads its top bit). -/
structure CoderOps (σ : Type) where
  shift : Nat → σ → PyResult σ
  underflow : σ → PyResult σ

/-- The first renormalization loop of `update` (lines 92-95): while low
and high share their top bit, emit it via `shift` and scale.  Python
loops until the guard fails; here the loop gets `numbits + 1` iterations
of fuel, which is enough for every state reachable past the checks of
`update` (the range at least doubles each iteration,
see `updateLoop1_spec`). -/
def updateLoop1 (numbits : Nat) (ops : CoderOps σ) :
    Nat → CoderState σ → PyResult (CoderState σ)
  | 0, s => .ok s
  | fuel + 1, s =>
    if (s.low ^^^ s.high) &&& half_range numbits = 0 then do
      let ext' ← ops.shift s.low s.ext
      updateLoop1 numbits ops fuel
        { low := (s.low <<< 1) &&& state_mask numbits,
          high := ((s.high <<< 1) &&& state_mask numbits) ||| 1,
          ext := ext' }
    else .ok s

/-- The second renormalization loop of `update` (lines 99-102): while
low's top two bits are 01 and high's are 10, delete the second highest
bit of both.  Python's `~self.high` (infinite two's complement) agrees
with `self.high ^^^ state_mask` on the bits below `numbits`, and only
bit `numbits - 2` of the conjunction is kept by `& quarter_range`; the
state reaching this loop always has `high <= state_mask`.  Fuel as in
`updateLoop1`. -/
def updateLoop2 (numbits : Nat) (ops : CoderOps σ) :
    Nat → CoderState σ → PyResult (CoderState σ)
  | 0, s => .ok s
  | fuel + 1, s =>
    if s.low &&& (s.high ^^^ state_mask numbits) &&& quarter_range numbits ≠ 0 then do
      let ext' ← ops.underflow s.ext
      updateLoop2 numbits ops fuel
        { low := (s.low <<< 1) ^^^ half_range numbits,
          high := ((s.high ^^^ half_range numbits) <<< 1) ||| half_range numbits ||| 1,
          ext := ext' }
    else .ok s

/-- The narrowed low endpoint, `low + symlow * range // total`
(line 86 of the source). -/
def ArithmeticCoderBase.narrowedLow (low range symlow total : Nat) : Nat :=
  low + symlow * range / total

/-- The narrowed high endpoint, `low + symhigh * range // total - 1`
(line 87 of the source). -/
def ArithmeticCoderBase.narrowedHigh (low range symhigh total : Nat) : Nat :=
  low + symhigh * range / total - 1

/-- ArithmeticCoderBase.update (lines 66-102): state checks, frequency
value checks, range narrowing, then the two renormalization loops. -/
def ArithmeticCoderBase.update (numbits : Nat) (ops : CoderOps σ) (freqs : FreqsView)
    (symbol : Nat) (s : CoderState σ) : PyResult (CoderState σ) := do
  -- State check
  let low := s.low
  let high := s.high
  if low ≥ high ∨ low &&& state_mask numbits ≠ low ∨ high &&& state_mask numbits ≠ high then
    .error .lowHighOutOfRange
  else
  let range := high - low + 1
  if ¬ (minimum_range numbits ≤ range ∧ range ≤ full_range numbits) then
    .error .rangeOutOfRange
  else do
  -- Frequency table values check
  let total ← freqs.get_total
  let symlow ← freqs.get_low symbol
  let symhigh ← freqs.get_high symbol
  if symlow = symhigh then .error .zeroFrequency
  else if total > maximum_total numbits then .error .totalTooLarge
  else do
  -- Update range
  let newlow := ArithmeticCoderBase.narrowedLow low range symlow total
  let newhigh := ArithmeticCoderBase.narrowedHigh low range symhigh total
  let s1 ← updateLoop1 numbits ops (numbits + 1) { low := newlow, high := newhigh, ext := s.ext }
  updateLoop2 numbits ops (numbits + 1) s1

/-! ## ArithmeticEncoder (arithmeticcoding.py lines 117-154) -/

/-- The encoder's subclass state: the underlying bit output stream and
the number of saved underflow bits (lines 120-125). -/
structure EncoderExt where
  output : BitOutputStream
  num_underflow : Nat
deriving DecidableEq, Repr

/-- Writing `count` copies of a bit, the `for _ in range(self.num_underflow)`
loop of lines 148-149. -/
def BitOutputStream.writeN (s : BitOutputStream) (b : Nat) : Nat → PyResult BitOutputStream
  | 0 => .ok s
  | count + 1 => do
    let s' ← s.write b
    s'.writeN b count

/-- ArithmeticEncoder.shift (lines 143-150): write the top bit of `low`,
then the saved underflow bits as its complement, and reset the counter. -/
def ArithmeticEncoder.shift (numbits : Nat) (low : Nat) (e : EncoderExt) : PyResult EncoderExt := do
  let bit := low >>> (numbits - 1)
  let out ← e.output.write bit
  let out ← out.writeN (bit ^^^ 1) e.num_underflow
  pure { output := out, num_underflow := 0 }

/-- ArithmeticEncoder.underflow (lines 153-154). -/
def ArithmeticEncoder.underflow (e : EncoderExt) : PyResult EncoderExt :=
  .ok { e with num_underflow := e.num_underflow + 1 }

/-- The encoder's concrete `shift`/`underflow` pair. -/
def encoderOps (numbits : Nat) : CoderOps EncoderExt :=
  { shift := ArithmeticEncoder.shift numbits, underflow := ArithmeticEncoder.underflow }

/-- ArithmeticEncoder construction (lines 120-125 with lines 16-50):
raises for `numbits < 1`, else `low = 0`, `high = state_mask`, empty
output, no pending underflow bits. -/
def ArithmeticEncoder.init (numbits : Nat) : PyResult (CoderState EncoderExt) :=
  if numbits < 1 then .error .stateSizeOutOfRange
  else .ok { low := 0, high := state_mask numbits,
             ext := { output := { output := [], currentbyte := 0, numbitsfilled := 0 },
                      num_underflow := 0 } }

/-- ArithmeticEncoder.finish (lines 139-140): write a single 1 bit. -/
def ArithmeticEncoder.finish (s : CoderState EncoderExt) : PyResult (CoderState EncoderExt) := do
  let out ← s.ext.output.write 1
  pure { s with ext := { s.ext with output := out } }

/-! ## ArithmeticDecoder (arithmeticcoding.py lines 159-222) -/

/-- The decoder's subclass state: the code register and the underlying
bit input stream (lines 163-170). -/
structure DecoderExt where
  code : Nat
  input : BitInputStream
deriving DecidableEq, Repr

/-- ArithmeticDecoder.read_code_bit (lines 218-222): one bit from the
input stream, with end of stream treated as zero.  The result of
`BitInputStream.read` is -1, 0 or 1, so `toNat` after the -1 test is
exact. -/
def ArithmeticDecoder.read_code_bit (e : DecoderExt) : Nat × DecoderExt :=
  let (temp, inp) := e.input.read
  let bit := if temp = -1 then 0 else temp
  (bit.toNat, { e with input := inp })

/-- ArithmeticDecoder.shift (lines 208-209). -/
def ArithmeticDecoder.shift (numbits : Nat) (_low : Nat) (e : DecoderExt) : PyResult DecoderExt :=
  let (b, e') := ArithmeticDecoder.read_code_bit e
  .ok { e' with code := ((e'.code <<< 1) &&& state_mask numbits) ||| b }

/-- ArithmeticDecoder.underflow (lines 212-213). -/
def ArithmeticDecoder.underflow (numbits : Nat) (e : DecoderExt) : PyResult DecoderExt :=
  let (b, e') := ArithmeticDecoder.read_code_bit e
  .ok { e' with
        code := (e'.code &&& half_range numbits) |||
                ((e'.code <<< 1) &&& (state_mask numbits >>> 1)) ||| b }

/-- The decoder's concrete `shift`/`underflow` pair. -/
def decoderOps (numbits : Nat) : CoderOps DecoderExt :=
  { shift := ArithmeticDecoder.shift numbits,
    underflow := fun e => ArithmeticDecoder.underflow numbits e }

/-- The `for _ in range(self.num_state_bits)` loop of lines 169-170:
`code = code << 1 | read_code_bit()`, `count` times. -/
def ArithmeticDecoder.fillCode (e : DecoderExt) (code : Nat) : Nat → Nat × DecoderExt
  | 0 => (code, e)
  | count + 1 =>
    let (b, e') := ArithmeticDecoder.read_code_bit e
    ArithmeticDecoder.fillCode e' ((code <<< 1) ||| b) count

/-- ArithmeticDecoder construction (lines 163-170 with lines 16-50):
raises for `numbits < 1`, else `low = 0`, `high = state_mask`, and the
code register filled with the first `numbits` input bits. -/
def ArithmeticDecoder.init (numbits : Nat) (bitin : BitInputStream) :
    PyResult (CoderState DecoderExt) :=
  if numbits < 1 then .error .stateSizeOutOfRange
  else
    let (code, e) := ArithmeticDecoder.fillCode { code := 0, input := bitin } 0 numbits
    .ok { low := 0, high := state_mask numbits, ext := { e with code := code } }

/-! ## write and read entry points (lines 130-133 and 175-205) -/

/-- A frequency table argument as passed to `write`/`read`: either a
plain table or one already wrapped in a CheckedFrequencyTable (the
`isinstance(freqs, CheckedFrequencyTable)` test of lines 131 and 176). -/
inductive PyFreqTable where
  | raw (t : RawTable)
  | checked (t : RawTable)

/-- Lines 131-132 and 176-177: wrap the table in a CheckedFrequencyTable
unless it already is one; either way, `update` and `read` then query
through the checked methods.  The checked queries raise unless
`0 <= low <= high <= total` (and a positive limit), so their results
are converted to `Nat` (exact whenever the query returns at all). -/
def PyFreqTable.checkedView : PyFreqTable → FreqsView
  | .raw t | .checked t =>
    { get_symbol_limit := (CheckedFrequencyTable.get_symbol_limit t).map Int.toNat,
      get_total := (CheckedFrequencyTable.get_total t).map Int.toNat,
      get_low := fun s => (CheckedFrequencyTable.get_low t (s : Int)).map Int.toNat,
      get_high := fun s => (CheckedFrequencyTable.get_high t (s : Int)).map Int.toNat }

/-- ArithmeticEncoder.write (lines 130-133): wrap in a
CheckedFrequencyTable if needed, then `update`. -/
def ArithmeticEncoder.write (numbits : Nat) (freqs : PyFreqTable) (symbol : Nat)
    (s : CoderState EncoderExt) : PyResult (CoderState EncoderExt) :=
  ArithmeticCoderBase.update numbits (encoderOps numbits) freqs.checkedView symbol s

/-- The binary search of ArithmeticDecoder.read (lines 190-197): find
the highest symbol with `freqs.get_low(symbol) <= value`.  The Python
`while` loop runs until `end - start <= 1`; the interval shrinks by at
least one element per iteration, so giving the loop `end - start`
iterations of fuel (read passes `get_symbol_limit()`, an upper bound)
reproduces it exactly (see `search_spec`). -/
def ArithmeticDecoder.search (freqs : FreqsView) (value : Int) :
    Nat → Nat → Nat → PyResult (Nat × Nat)
  | 0, start, e => .ok (start, e)
  | fuel + 1, start, e =>
    if e - start > 1 then
      let middle := (start + e) >>> 1
      match freqs.get_low middle with
      | .error err => .error err
      | .ok glow =>
        if (glow : Int) > value then ArithmeticDecoder.search freqs value fuel start middle
        else ArithmeticDecoder.search freqs value fuel middle e
    else .ok (start, e)

/-- ArithmeticDecoder.read (lines 175-205): wrap the table, check the
total, compute the scaled `value` (Python `//` on possibly negative
operands is `Int.fdiv`), run the inline asserts, binary-search the
symbol, `update`, and check that `code` is back inside `[low, high]`. -/
def ArithmeticDecoder.read (numbits : Nat) (freqs : PyFreqTable)
    (s : CoderState DecoderExt) : PyResult (Nat × CoderState DecoderExt) := do
  let fview := freqs.checkedView
  let total ← fview.get_total
  if total > maximum_total numbits then .error .totalTooLarge
  else do
  let range : Int := (s.high : Int) - (s.low : Int) + 1
  let offset : Int := (s.ext.code : Int) - (s.low : Int)
  let value : Int := (((offset + 1) * (total : Int) - 1).fdiv range)
  if ¬ ((value * range).fdiv (total : Int) ≤ offset) then .error .assertFailed
  else if ¬ (0 ≤ value ∧ value < (total : Int)) then .error .assertFailed
  else do
  let limit ← fview.get_symbol_limit
  let (start, e) ← ArithmeticDecoder.search fview value limit 0 limit
  if ¬ (start + 1 = e) then .error .assertFailed
  else do
  let symbol := start
  let symlow ← fview.get_low symbol
  let symhigh ← fview.get_high symbol
  if ¬ (((symlow : Int) * range).fdiv (total : Int) ≤ offset ∧
        offset < ((symhigh : Int) * range).fdiv (total : Int)) then .error .assertFailed
  else do
  let s' ← ArithmeticCoderBase.update numbits (decoderOps numbits) fview symbol s
  if ¬ (s'.low ≤ s'.ext.code ∧ s'.ext.code ≤ s'.high) then .error .codeOutOfRange
  else pure (symbol, s')

/-! ## The adaptive decompressor (adaptive-arithmetic-decompress.py) -/

/-- adaptive-arithmetic-decompress.py, decompress (lines 33-43): builds
the flat table of 257 symbols and the simple table copied from it, then
executes `dec = arithmeticcoding.ArithmeticDecoder(bitin)`.
`ArithmeticDecoder.__init__` (arithmeticcoding.py line 163) has the
signature `(self, numbits, bitin)`, so this call is missing one required
positional argument and the Python runtime raises TypeError at that
line, before any symbol is decoded; the decode loop below that line is
unreachable. -/
def adaptive_decompress (bitin : BitInputStream) : PyResult (List Nat) := do
  let initfreqs ← FlatFrequencyTable.init 257
  let _freqs ← SimpleFrequencyTable.ofFlat initfreqs
  let _ := bitin
  .error .typeError

set_option maxRecDepth 8000 in
/-- C1: the adaptive round-trip `decompress(adaptive-compress(B)) = B`
fails for every byte sequence `B`: the adaptive decompressor raises
TypeError on every input bit stream (its `ArithmeticDecoder(bitin)`
call omits the required `numbits` argument of
`ArithmeticDecoder.__init__`), so it never outputs any byte sequence,
in particular not `B` on the compressor's output. -/
theorem adaptive_decompress_raises_typeError (bitin : BitInputStream) :
    adaptive_decompress bitin = .error .typeError := by
  rfl

/-! ## C7: end-of-stream behavior of the bit reader -/

/-- C7 counterexample: on an exhausted stream the bit reader reports the
distinguished value `-1` on the first read AND on the read after it —
the claim says every read after the first end-of-stream report yields a
zero bit, but the second read yields `-1`, not `0`. -/
theorem bit_input_second_read_after_eof_is_not_zero :
    (BitInputStream.read (BitInputStream.read (BitInputStream.init [])).2).1 = -1 ∧
    ((BitInputStream.read (BitInputStream.read (BitInputStream.init [])).2).1 ≠ 0) := by
  decide

/-- C7 amended: `BitInputStream.read` reports end-of-stream as the
distinguished value `-1` on the first read past the end of the byte
stream and on EVERY subsequent read (the stream latches
`currentbyte = -1` and never leaves that state); it is the decoder's
`read_code_bit` that maps the distinguished value to a zero bit, so the
decoder's code-bit reads see an infinite tail of zeros. -/
theorem bit_input_eof_latched_and_code_bit_zero :
    (∀ s : BitInputStream, s.currentbyte = -1 → s.read = (-1, s)) ∧
    (∀ s : BitInputStream, s.currentbyte ≠ -1 → s.numbitsremaining = 0 → s.input = [] →
      s.read = (-1, { s with currentbyte := -1 }) ∧
      ({ s with currentbyte := -1 } : BitInputStream).currentbyte = -1) ∧
    (∀ e : DecoderExt, (e.input.read).1 = -1 →
      ArithmeticDecoder.read_code_bit e = (0, { e with input := (e.input.read).2 })) := by
  refine ⟨?_, ?_, ?_⟩
  · intro s h
    unfold BitInputStream.read
    simp [h]
  · intro s h h0 hin
    unfold BitInputStream.read
    simp [h, h0, hin]
  · intro e h
    rcases hread : e.input.read with ⟨temp, inp⟩
    rw [hread] at h
    simp only at h
    unfold ArithmeticDecoder.read_code_bit
    rw [hread]
    simp [h]

/-- C7 amended, witness: the three parts applied to concrete streams. -/
theorem bit_input_eof_latched_and_code_bit_zero_witness :
    (BitInputStream.read { input := [], currentbyte := -1, numbitsremaining := 0 }
      = (-1, { input := [], currentbyte := -1, numbitsremaining := 0 })) ∧
    (BitInputStream.read (BitInputStream.init [])
      = (-1, { input := [], currentbyte := -1, numbitsremaining := 0 })) ∧
    (ArithmeticDecoder.read_code_bit
        { code := 0, input := { input := [], currentbyte := -1, numbitsremaining := 0 } }
      = (0, { code := 0, input := { input := [], currentbyte := -1, numbitsremaining := 0 } })) :=
  ⟨bit_input_eof_latched_and_code_bit_zero.1 _ rfl,
   (bit_input_eof_latched_and_code_bit_zero.2.1 (BitInputStream.init [])
      (by decide) rfl rfl).1,
   bit_input_eof_latched_and_code_bit_zero.2.2 _ rfl⟩

/-! ## C8: concrete SimpleFrequencyTable behavior -/

/-- The table built from frequencies [3, 1, 4, 1, 5]: total 14, no
cumulative cache yet. -/
def c8_table : SimpleFrequencyTable :=
  { frequencies := [3, 1, 4, 1, 5], total := 14, cumulative := none }

/-- C8: for the SimpleFrequencyTable constructed from [3, 1, 4, 1, 5]:
`get_total() = 14`, `get_low(2) = 4`, `get_high(2) = 8`; after
`increment(2)`: the cumulative cache is invalidated (`None`), and
`get_total() = 15`, `get_low(2) = 4`, `get_high(2) = 9`, `get_low(3) = 9`,
the cache being rebuilt to [0, 3, 4, 9, 10, 15] by the first cumulative
query after the mutation. -/
theorem simple_table_concrete_values :
    SimpleFrequencyTable.fromList [3, 1, 4, 1, 5] = .ok c8_table ∧
    c8_table.get_total = 14 ∧
    (c8_table.get_low 2).1 = .ok 4 ∧
    (((c8_table.get_low 2).2).get_high 2).1 = .ok 8 ∧
    (c8_table.increment 2).1 = .ok () ∧
    ((c8_table.increment 2).2).cumulative = none ∧
    ((c8_table.increment 2).2).get_total = 15 ∧
    (((c8_table.increment 2).2).get_low 2).1 = .ok 4 ∧
    ((((c8_table.increment 2).2).get_low 2).2).cumulative = some [0, 3, 4, 9, 10, 15] ∧
    (((((c8_table.increment 2).2).get_low 2).2).get_high 2).1 = .ok 9 ∧
    (((((c8_table.increment 2).2).get_low 2).2).get_low 3).1 = .ok 9 := by
  decide

/-! ## C9: atomicity of failed SimpleFrequencyTable mutations -/

/-- C9: if `set` or `increment` raises, the table is left completely
unchanged (the frequency list, the running total and the cumulative
cache are all as before, hence so is the result of every subsequent
query). -/
theorem simple_table_failed_mutation_unchanged (t : SimpleFrequencyTable)
    (symbol freq : Int) :
    (∀ e : PyErr, (t.set symbol freq).1 = .error e → (t.set symbol freq).2 = t) ∧
    (∀ e : PyErr, (t.increment symbol).1 = .error e → (t.increment symbol).2 = t) := by
  constructor
  · intro e h
    unfold SimpleFrequencyTable.set at h ⊢
    cases hc : t.check_symbol symbol with
    | error e' => simp [hc]
    | ok u =>
      simp only [hc] at h ⊢
      split
      · rfl
      · split
        · rfl
        · rename_i hf ht
          rw [if_neg hf, if_neg ht] at h
          simp at h
  · intro e h
    unfold SimpleFrequencyTable.increment at h ⊢
    cases hc : t.check_symbol symbol with
    | error e' => simp [hc]
    | ok u =>
      simp only [hc] at h
      simp at h

/-- C9 witness: a failing `set` (out-of-range symbol) and a failing
`increment` on a concrete table leave it unchanged. -/
theorem simple_table_failed_mutation_unchanged_witness :
    (({ frequencies := [1], total := 1, cumulative := none } :
        SimpleFrequencyTable).set 5 0).2 =
      { frequencies := [1], total := 1, cumulative := none } ∧
    (({ frequencies := [1], total := 1, cumulative := none } :
        SimpleFrequencyTable).increment (-3)).2 =
      { frequencies := [1], total := 1, cumulative := none } :=
  ⟨(simple_table_failed_mutation_unchanged _ 5 0).1 .symbolOutOfRange (by decide),
   (simple_table_failed_mutation_unchanged _ (-3) 0).2 .symbolOutOfRange (by decide)⟩

/-! ## Arithmetic facts about the coder constants and bit operations -/

theorem full_range_eq (n : Nat) : full_range n = 2 ^ n := by
  simp [full_range, Nat.shiftLeft_eq]

theorem half_range_eq {n : Nat} (h : 1 ≤ n) : half_range n = 2 ^ (n - 1) := by
  rw [half_range, full_range_eq, Nat.shiftRight_one]
  conv_lhs => rw [show n = (n - 1) + 1 by omega]
  rw [pow_succ]
  exact Nat.mul_div_cancel _ (by norm_num)

theorem quarter_range_eq {n : Nat} (h : 2 ≤ n) : quarter_range n = 2 ^ (n - 2) := by
  rw [quarter_range, half_range_eq (by omega), Nat.shiftRight_one]
  conv_lhs => rw [show n - 1 = (n - 2) + 1 by omega]
  rw [pow_succ]
  exact Nat.mul_div_cancel _ (by norm_num)

theorem quarter_range_one : quarter_range 1 = 0 := by decide

theorem state_mask_eq (n : Nat) : state_mask n = 2 ^ n - 1 := by
  rw [state_mask, full_range_eq]

theorem and_state_mask (x n : Nat) : x &&& state_mask n = x % 2 ^ n := by
  rw [state_mask_eq, Nat.and_pow_two_sub_one_eq_mod]

theorem shiftLeft_one_eq (x : Nat) : x <<< 1 = 2 * x := by
  rw [Nat.shiftLeft_eq]; ring

theorem two_mul_lor_one (a : Nat) : 2 * a ||| 1 = 2 * a + 1 := by
  have h1 : 2 * a = Nat.bit false a := by simp [Nat.bit_val]
  have h2 : (1 : Nat) = Nat.bit true 0 := by simp [Nat.bit_val]
  rw [h1, h2, Nat.lor_bit]
  simp [Nat.bit_val]

theorem two_mul_lor_le_one (a b : Nat) (hb : b ≤ 1) : 2 * a ||| b = 2 * a + b := by
  interval_cases b
  · simp
  · exact two_mul_lor_one a

theorem lor_two_pow_of_lt : ∀ (k r : Nat), r < 2 ^ k → r ||| 2 ^ k = r + 2 ^ k := by
  intro k
  induction k with
  | zero =>
    intro r hr
    interval_cases r
    decide
  | succ k ih =>
    intro r hr
    have hd := Nat.bit_decomp r
    have hdv : 2 * r.div2 + r.bodd.toNat = r := by
      rw [← Nat.bit_val]; exact hd
    have hp : (2 : Nat) ^ (k + 1) = Nat.bit false (2 ^ k) := by
      simp [Nat.bit_val]; ring
    have hrk : r.div2 < 2 ^ k := by
      rw [← hd] at hr
      exact Nat.bit_lt_two_pow_succ_iff.mp hr
    conv_lhs => rw [← hd]
    rw [hp, Nat.lor_bit, ih _ hrk, Nat.bit_val]
    simp only [Bool.or_false]
    have hpk : (2 : Nat) ^ (k + 1) = 2 * 2 ^ k := by ring
    omega

theorem xor_two_pow_add : ∀ (k r : Nat), r < 2 ^ k → (2 ^ k + r) ^^^ 2 ^ k = r := by
  intro k
  induction k with
  | zero =>
    intro r hr
    interval_cases r
    decide
  | succ k ih =>
    intro r hr
    have hd := Nat.bit_decomp r
    have hdv : 2 * r.div2 + r.bodd.toNat = r := by
      rw [← Nat.bit_val]; exact hd
    have hp : (2 : Nat) ^ (k + 1) = Nat.bit false (2 ^ k) := by
      simp [Nat.bit_val]; ring
    have hpk : (2 : Nat) ^ (k + 1) = 2 * 2 ^ k := by ring
    have hsum : (2 : Nat) ^ (k + 1) + r = Nat.bit r.bodd (2 ^ k + r.div2) := by
      rw [Nat.bit_val]; omega
    have hrk : r.div2 < 2 ^ k := by
      rw [← hd] at hr
      exact Nat.bit_lt_two_pow_succ_iff.mp hr
    rw [hsum, hp, Nat.xor_bit, ih _ hrk]
    simp only [Bool.bne_false]
    exact hd

theorem and_two_pow_eq_zero_iff (x k : Nat) : (x &&& 2 ^ k = 0) ↔ x.testBit k = false := by
  rw [Nat.and_two_pow]
  cases h : x.testBit k <;> simp [h]

theorem testBit_eq_decide_le {k x : Nat} (hx : x < 2 ^ (k + 1)) :
    x.testBit k = decide (2 ^ k ≤ x) := by
  rw [Nat.testBit_to_div_mod]
  have hkpos : 0 < 2 ^ k := Nat.pos_pow_of_pos k (by norm_num)
  have h2 : x / 2 ^ k < 2 := by
    rw [Nat.div_lt_iff_lt_mul hkpos]
    calc x < 2 ^ (k + 1) := hx
    _ = 2 * 2 ^ k := by ring
  have hmod : x / 2 ^ k % 2 = x / 2 ^ k := Nat.mod_eq_of_lt h2
  rw [hmod, decide_eq_decide]
  have hle : 1 ≤ x / 2 ^ k ↔ 2 ^ k ≤ x := by
    rw [Nat.le_div_iff_mul_le hkpos, one_mul]
  constructor
  · intro h1
    exact hle.mp (by omega)
  · intro h1
    have h4 := hle.mpr h1
    omega

theorem testBit_eq_decide_three {k x : Nat} (hx1 : 2 ^ (k + 1) ≤ x) (hx2 : x < 2 ^ (k + 2)) :
    x.testBit k = decide (3 * 2 ^ k ≤ x) := by
  rw [Nat.testBit_to_div_mod]
  have hkpos : 0 < 2 ^ k := Nat.pos_pow_of_pos k (by norm_num)
  have hlo : 2 ≤ x / 2 ^ k := by
    rw [Nat.le_div_iff_mul_le hkpos]
    calc 2 * 2 ^ k = 2 ^ (k + 1) := by ring
    _ ≤ x := hx1
  have hhi : x / 2 ^ k < 4 := by
    rw [Nat.div_lt_iff_lt_mul hkpos]
    calc x < 2 ^ (k + 2) := hx2
    _ = 4 * 2 ^ k := by ring
  have h3 : 3 * 2 ^ k ≤ x ↔ 3 ≤ x / 2 ^ k := (Nat.le_div_iff_mul_le hkpos).symm
  rw [decide_eq_decide]
  rw [h3]
  omega

theorem mod_half_eq (x : Nat) {n : Nat} (hn : 1 ≤ n) :
    2 * x % 2 ^ n = 2 * (x % 2 ^ (n - 1)) := by
  conv_lhs => rw [show n = (n - 1) + 1 by omega, pow_succ']
  exact Nat.mul_mod_mul_left 2 x (2 ^ (n - 1))

theorem loop1_guard_iff {n low high : Nat} (hn : 1 ≤ n) (hl : low < 2 ^ n) (hh : high < 2 ^ n) :
    ((low ^^^ high) &&& half_range n = 0) ↔
      (2 ^ (n - 1) ≤ low ↔ 2 ^ (n - 1) ≤ high) := by
  have he : n = (n - 1) + 1 := by omega
  rw [half_range_eq hn, and_two_pow_eq_zero_iff, Nat.testBit_xor]
  rw [@testBit_eq_decide_le (n - 1) low (by rw [← he]; exact hl),
      @testBit_eq_decide_le (n - 1) high (by rw [← he]; exact hh)]
  by_cases hp : 2 ^ (n - 1) ≤ low <;> by_cases hq : 2 ^ (n - 1) ≤ high <;>
    simp [hp, hq]

theorem loop2_guard_iff {n low high : Nat} (h2 : 2 ≤ n)
    (hl : low < 2 ^ (n - 1)) (hh1 : 2 ^ (n - 1) ≤ high) (hh2 : high < 2 ^ n) :
    (low &&& (high ^^^ state_mask n) &&& quarter_range n ≠ 0) ↔
      (2 ^ (n - 2) ≤ low ∧ high < 2 ^ (n - 1) + 2 ^ (n - 2)) := by
  rw [Ne, quarter_range_eq h2, and_two_pow_eq_zero_iff]
  rw [Nat.testBit_and, Nat.testBit_xor, state_mask_eq, Nat.testBit_two_pow_sub_one]
  have hml : n - 2 < n := by omega
  have e1 : n - 1 = (n - 2) + 1 := by omega
  have e2 : n = (n - 2) + 2 := by omega
  have e3 : (3 : Nat) * 2 ^ (n - 2) = 2 ^ (n - 1) + 2 ^ (n - 2) := by
    rw [e1, pow_succ]; ring
  rw [@testBit_eq_decide_le (n - 2) low (by rw [← e1]; exact hl),
      @testBit_eq_decide_three (n - 2) high (by rw [← e1]; exact hh1) (by rw [← e2]; exact hh2),
      e3]
  by_cases hp : 2 ^ (n - 2) ≤ low <;>
    by_cases hq : 2 ^ (n - 1) + 2 ^ (n - 2) ≤ high <;>
      simp [hp, hq, hml] <;> omega

theorem updateLoop1_spec {σ : Type} {n : Nat} (ops : CoderOps σ) (R : CoderState σ → Prop)
    (hn : 1 ≤ n)
    (hshift : ∀ (low : Nat) (ext : σ), low < full_range n → ∃ e', ops.shift low ext = .ok e')
    (hR : ∀ s : CoderState σ, s.low ≤ s.high → s.high < full_range n →
        ((s.low ^^^ s.high) &&& half_range n = 0) →
        ∀ e', ops.shift s.low s.ext = .ok e' → R s →
        R { low := (s.low <<< 1) &&& state_mask n,
            high := ((s.high <<< 1) &&& state_mask n) ||| 1, ext := e' }) :
    ∀ (fuel : Nat) (s : CoderState σ),
      s.low ≤ s.high → s.high < full_range n → R s →
      half_range n < 2 ^ fuel * (s.high - s.low + 1) →
      ∃ s', updateLoop1 n ops fuel s = .ok s' ∧
        s'.low < half_range n ∧ half_range n ≤ s'.high ∧ s'.high < full_range n ∧ R s' := by
  have hFH : full_range n = 2 * half_range n := by
    rw [full_range_eq, half_range_eq hn]
    conv_lhs => rw [show n = (n - 1) + 1 by omega, pow_succ]
    ring
  intro fuel
  induction fuel with
  | zero =>
    intro s hlh hhf hR0 hfuel
    rw [pow_zero, one_mul] at hfuel
    refine ⟨s, rfl, by omega, by omega, hhf, hR0⟩
  | succ fuel ih =>
    intro s hlh hhf hR0 hfuel
    have hlf : s.low < full_range n := lt_of_le_of_lt hlh hhf
    by_cases hg : (s.low ^^^ s.high) &&& half_range n = 0
    · -- guard holds: one more shift-and-scale step
      obtain ⟨e', he'⟩ := hshift s.low s.ext hlf
      have hgi : (2 ^ (n - 1) ≤ s.low ↔ 2 ^ (n - 1) ≤ s.high) :=
        (loop1_guard_iff hn (by rw [← full_range_eq]; exact hlf)
          (by rw [← full_range_eq]; exact hhf)).mp hg
      have hH : half_range n = 2 ^ (n - 1) := half_range_eq hn
      -- the scaled endpoints
      have hlow1 : (s.low <<< 1) &&& state_mask n = 2 * (s.low % 2 ^ (n - 1)) := by
        rw [shiftLeft_one_eq, and_state_mask, mod_half_eq _ hn]
      have hhigh1 : ((s.high <<< 1) &&& state_mask n) ||| 1 = 2 * (s.high % 2 ^ (n - 1)) + 1 := by
        rw [shiftLeft_one_eq, and_state_mask, mod_half_eq _ hn, two_mul_lor_one]
      set s₁ : CoderState σ :=
        { low := (s.low <<< 1) &&& state_mask n,
          high := ((s.high <<< 1) &&& state_mask n) ||| 1, ext := e' } with hs₁
      have hmods : s₁.low = 2 * (s.low % 2 ^ (n - 1)) ∧
          s₁.high = 2 * (s.high % 2 ^ (n - 1)) + 1 := ⟨hlow1, hhigh1⟩
      have hcase : (s.low % 2 ^ (n - 1) = s.low ∧ s.high % 2 ^ (n - 1) = s.high) ∨
          (2 ^ (n - 1) ≤ s.low ∧ s.low % 2 ^ (n - 1) = s.low - 2 ^ (n - 1) ∧
           s.high % 2 ^ (n - 1) = s.high - 2 ^ (n - 1)) := by
        by_cases hp : 2 ^ (n - 1) ≤ s.low
        · right
          have hq := hgi.mp hp
          refine ⟨hp, ?_, ?_⟩
          · rw [Nat.mod_eq_sub_mod hp]
            exact Nat.mod_eq_of_lt (by rw [hH] at hFH; omega)
          · rw [Nat.mod_eq_sub_mod hq]
            exact Nat.mod_eq_of_lt (by rw [hH] at hFH; omega)
        · left
          have hq : ¬ 2 ^ (n - 1) ≤ s.high := fun hc => hp (hgi.mpr hc)
          exact ⟨Nat.mod_eq_of_lt (by omega), Nat.mod_eq_of_lt (by omega)⟩
      have hstep : s₁.low ≤ s₁.high ∧ s₁.high < full_range n ∧
          s₁.high - s₁.low + 1 = 2 * (s.high - s.low + 1) := by
        rw [hH] at hFH
        rcases hcase with ⟨hml, hmh⟩ | ⟨hp, hml, hmh⟩ <;>
          rw [hmods.1, hmods.2, hml, hmh] <;> omega
      have hfuel1 : half_range n < 2 ^ fuel * (s₁.high - s₁.low + 1) := by
        rw [hstep.2.2]
        calc half_range n < 2 ^ (fuel + 1) * (s.high - s.low + 1) := hfuel
        _ = 2 ^ fuel * (2 * (s.high - s.low + 1)) := by ring
      have hR1 : R s₁ := hR s hlh hhf hg e' he' hR0
      obtain ⟨s', hrun, hc1, hc2, hc3, hc4⟩ := ih s₁ hstep.1 hstep.2.1 hR1 hfuel1
      refine ⟨s', ?_, hc1, hc2, hc3, hc4⟩
      rw [updateLoop1, if_pos hg, he']
      exact hrun
    · -- guard fails: the loop exits with low and high in different halves
      have hgi : ¬ (2 ^ (n - 1) ≤ s.low ↔ 2 ^ (n - 1) ≤ s.high) := fun hc =>
        hg ((loop1_guard_iff hn (by rw [← full_range_eq]; exact hlf)
          (by rw [← full_range_eq]; exact hhf)).mpr hc)
      have hH : half_range n = 2 ^ (n - 1) := half_range_eq hn
      refine ⟨s, ?_, by rw [hH]; omega, by rw [hH]; omega, hhf, hR0⟩
      rw [updateLoop1, if_neg hg]

theorem quarter_ne_zero_two_le {n : Nat} (hn : 1 ≤ n) (hq : quarter_range n ≠ 0) : 2 ≤ n := by
  by_contra hc
  have : n = 1 := by omega
  rw [this, quarter_range_one] at hq
  exact hq rfl

theorem updateLoop2_spec {σ : Type} {n : Nat} (ops : CoderOps σ) (R : CoderState σ → Prop)
    (hn : 1 ≤ n)
    (hunf : ∀ ext : σ, ∃ e', ops.underflow ext = .ok e')
    (hR : ∀ s : CoderState σ, s.low < half_range n → half_range n ≤ s.high →
        s.high < full_range n →
        (s.low &&& (s.high ^^^ state_mask n) &&& quarter_range n ≠ 0) →
        ∀ e', ops.underflow s.ext = .ok e' → R s →
        R { low := (s.low <<< 1) ^^^ half_range n,
            high := ((s.high ^^^ half_range n) <<< 1) ||| half_range n ||| 1, ext := e' }) :
    ∀ (fuel : Nat) (s : CoderState σ),
      s.low < half_range n → half_range n ≤ s.high → s.high < full_range n → R s →
      half_range n < 2 ^ fuel * (s.high - s.low + 1) →
      ∃ s', updateLoop2 n ops fuel s = .ok s' ∧
        s'.low < half_range n ∧ half_range n ≤ s'.high ∧ s'.high < full_range n ∧
        minimum_range n ≤ s'.high - s'.low + 1 ∧
        (s'.low < quarter_range n ∨ half_range n + quarter_range n ≤ s'.high) ∧ R s' := by
  have hFH : full_range n = 2 * half_range n := by
    rw [full_range_eq, half_range_eq hn]
    conv_lhs => rw [show n = (n - 1) + 1 by omega, pow_succ]
    ring
  -- facts used to interpret a failed guard
  have hexit : ∀ s : CoderState σ, s.low < half_range n → half_range n ≤ s.high →
      s.high < full_range n →
      ¬ (s.low &&& (s.high ^^^ state_mask n) &&& quarter_range n ≠ 0) →
      minimum_range n ≤ s.high - s.low + 1 ∧
        (s.low < quarter_range n ∨ half_range n + quarter_range n ≤ s.high) := by
    intro s hl hh1 hh2 hg
    rcases Nat.lt_or_ge n 2 with h1 | h2
    · -- n = 1: quarter_range = 0, minimum_range = 2, low = 0, high = 1
      have hn1 : n = 1 := by omega
      subst hn1
      have hl' : s.low = 0 := by
        have : half_range 1 = 1 := by decide
        omega
      have hh' : s.high = 1 := by
        have e1 : half_range 1 = 1 := by decide
        have e2 : full_range 1 = 2 := by decide
        omega
      have e1 : half_range 1 = 1 := by decide
      have e3 : quarter_range 1 = 0 := by decide
      have e4 : minimum_range 1 = 2 := by decide
      omega
    · have hH := half_range_eq (by omega : 1 ≤ n)
      have hQ := quarter_range_eq h2
      have hHQ : half_range n = 2 * quarter_range n := by
        rw [hH, hQ]
        conv_lhs => rw [show n - 1 = (n - 2) + 1 by omega, pow_succ]
        ring
      have hiff := @loop2_guard_iff n s.low s.high h2
        (by rw [← hH]; exact hl) (by rw [← hH]; exact hh1)
        (by rw [← full_range_eq]; exact hh2)
      rw [not_not] at hg
      have hneg : ¬ (2 ^ (n - 2) ≤ s.low ∧ s.high < 2 ^ (n - 1) + 2 ^ (n - 2)) := by
        intro hc
        exact absurd (hiff.mpr hc) (by rw [not_not]; exact hg)
      rw [minimum_range]
      rw [hH, hQ] at hHQ ⊢
      rw [hH] at hh1 hl
      rw [hH, full_range_eq] at hFH
      omega
  intro fuel
  induction fuel with
  | zero =>
    intro s hl hh1 hh2 hR0 hfuel
    rw [pow_zero, one_mul] at hfuel
    have hg : ¬ (s.low &&& (s.high ^^^ state_mask n) &&& quarter_range n ≠ 0) := by
      intro hg
      have h2 : 2 ≤ n := quarter_ne_zero_two_le hn (by
        intro hq
        rw [hq, Nat.and_zero] at hg
        exact hg rfl)
      have hH := half_range_eq (by omega : 1 ≤ n)
      have hQ := quarter_range_eq h2
      have hHQ : half_range n = 2 * quarter_range n := by
        rw [hH, hQ]
        conv_lhs => rw [show n - 1 = (n - 2) + 1 by omega, pow_succ]
        ring
      have hiff := @loop2_guard_iff n s.low s.high h2
        (by rw [← hH]; exact hl) (by rw [← hH]; exact hh1)
        (by rw [← full_range_eq]; exact hh2)
      obtain ⟨hql, hqh⟩ := hiff.mp hg
      rw [hQ] at hHQ
      rw [hH] at hfuel hl hh1
      omega
    obtain ⟨hm, hd⟩ := hexit s hl hh1 hh2 hg
    exact ⟨s, rfl, hl, hh1, hh2, hm, hd, hR0⟩
  | succ fuel ih =>
    intro s hl hh1 hh2 hR0 hfuel
    by_cases hg : s.low &&& (s.high ^^^ state_mask n) &&& quarter_range n ≠ 0
    · -- guard holds: one more underflow-and-delete step
      have h2 : 2 ≤ n := quarter_ne_zero_two_le hn (by
        intro hq
        rw [hq, Nat.and_zero] at hg
        exact hg rfl)
      obtain ⟨e', he'⟩ := hunf s.ext
      have hH := half_range_eq (by omega : 1 ≤ n)
      have hQ := quarter_range_eq h2
      have hHQ : 2 ^ (n - 1) = 2 * 2 ^ (n - 2) := by
        conv_lhs => rw [show n - 1 = (n - 2) + 1 by omega, pow_succ]
        ring
      have hiff := @loop2_guard_iff n s.low s.high h2
        (by rw [← hH]; exact hl) (by rw [← hH]; exact hh1)
        (by rw [← full_range_eq]; exact hh2)
      obtain ⟨hql, hqh⟩ := hiff.mp hg
      rw [hH] at hl hh1
      rw [full_range_eq] at hh2
      -- the rescaled low endpoint: (low << 1) ^^^ half = 2*low - half
      have hlow1 : (s.low <<< 1) ^^^ half_range n = 2 * s.low - 2 ^ (n - 1) := by
        rw [shiftLeft_one_eq, hH]
        have hr : 2 * s.low - 2 ^ (n - 1) < 2 ^ (n - 1) := by omega
        conv_lhs => rw [show 2 * s.low = 2 ^ (n - 1) + (2 * s.low - 2 ^ (n - 1)) by omega]
        exact xor_two_pow_add _ _ hr
      -- the rescaled high endpoint
      have hhigh1 : ((s.high ^^^ half_range n) <<< 1) ||| half_range n ||| 1 =
          2 * (s.high - 2 ^ (n - 1)) + 2 ^ (n - 1) + 1 := by
        rw [hH]
        have hr2 : s.high - 2 ^ (n - 1) < 2 ^ (n - 1) := by omega
        have hx : s.high ^^^ 2 ^ (n - 1) = s.high - 2 ^ (n - 1) := by
          conv_lhs => rw [show s.high = 2 ^ (n - 1) + (s.high - 2 ^ (n - 1)) by omega]
          exact xor_two_pow_add _ _ hr2
        rw [hx, shiftLeft_one_eq]
        have h2r : 2 * (s.high - 2 ^ (n - 1)) < 2 ^ (n - 1) := by omega
        rw [lor_two_pow_of_lt _ _ h2r]
        have heven : 2 * (s.high - 2 ^ (n - 1)) + 2 ^ (n - 1) =
            2 * ((s.high - 2 ^ (n - 1)) + 2 ^ (n - 2)) := by omega
        rw [heven, two_mul_lor_one]
      have hFpow : (2 : Nat) ^ n = 2 * 2 ^ (n - 1) := by
        conv_lhs => rw [show n = (n - 1) + 1 by omega, pow_succ]
        ring
      set s₁ : CoderState σ :=
        { low := (s.low <<< 1) ^^^ half_range n,
          high := ((s.high ^^^ half_range n) <<< 1) ||| half_range n ||| 1, ext := e' } with hs₁
      have hstep : s₁.low < half_range n ∧ half_range n ≤ s₁.high ∧
          s₁.high < full_range n ∧ s₁.high - s₁.low + 1 = 2 * (s.high - s.low + 1) := by
        rw [hs₁]
        simp only [hlow1, hhigh1]
        rw [hH, full_range_eq]
        constructor
        · omega
        constructor
        · omega
        constructor
        · omega
        · omega
      have hfuel1 : half_range n < 2 ^ fuel * (s₁.high - s₁.low + 1) := by
        rw [hstep.2.2.2]
        calc half_range n < 2 ^ (fuel + 1) * (s.high - s.low + 1) := hfuel
        _ = 2 ^ fuel * (2 * (s.high - s.low + 1)) := by ring
      have hR1 : R s₁ := hR s (by rw [hH]; omega) (by rw [hH]; omega)
        (by rw [full_range_eq]; omega) hg e' he' hR0
      obtain ⟨s', hrun, hc1, hc2, hc3, hc4, hc5, hc6⟩ := ih s₁ hstep.1 hstep.2.1 hstep.2.2.1 hR1 hfuel1
      refine ⟨s', ?_, hc1, hc2, hc3, hc4, hc5, hc6⟩
      rw [updateLoop2, if_pos hg, he']
      exact hrun
    · obtain ⟨hm, hd⟩ := hexit s hl hh1 hh2 hg
      refine ⟨s, ?_, hl, hh1, hh2, hm, hd, hR0⟩
      rw [updateLoop2, if_neg hg]

theorem except_bind_ok {ε α β : Type} (a : α) (f : α → Except ε β) :
    (Except.ok a >>= f : Except ε β) = f a := rfl

theorem update_ok_spec {σ : Type} {n : Nat} (ops : CoderOps σ) (R : CoderState σ → Prop)
    (hn : 1 ≤ n)
    (hshift : ∀ (low : Nat) (ext : σ), low < full_range n → ∃ e', ops.shift low ext = .ok e')
    (hR1 : ∀ s : CoderState σ, s.low ≤ s.high → s.high < full_range n →
        ((s.low ^^^ s.high) &&& half_range n = 0) →
        ∀ e', ops.shift s.low s.ext = .ok e' → R s →
        R { low := (s.low <<< 1) &&& state_mask n,
            high := ((s.high <<< 1) &&& state_mask n) ||| 1, ext := e' })
    (hunf : ∀ ext : σ, ∃ e', ops.underflow ext = .ok e')
    (hR2 : ∀ s : CoderState σ, s.low < half_range n → half_range n ≤ s.high →
        s.high < full_range n →
        (s.low &&& (s.high ^^^ state_mask n) &&& quarter_range n ≠ 0) →
        ∀ e', ops.underflow s.ext = .ok e' → R s →
        R { low := (s.low <<< 1) ^^^ half_range n,
            high := ((s.high ^^^ half_range n) <<< 1) ||| half_range n ||| 1, ext := e' })
    (freqs : FreqsView) (symbol : Nat) (s : CoderState σ)
    (total symlow symhigh : Nat)
    (htot : freqs.get_total = .ok total)
    (hlowq : freqs.get_low symbol = .ok symlow)
    (hhighq : freqs.get_high symbol = .ok symhigh)
    (hsl : symlow < symhigh) (hsh : symhigh ≤ total) (htmax : total ≤ maximum_total n)
    (hl : s.low < half_range n) (hh1 : half_range n ≤ s.high) (hh2 : s.high < full_range n)
    (hmin : minimum_range n ≤ s.high - s.low + 1)
    (hRinit : R { low := ArithmeticCoderBase.narrowedLow s.low (s.high - s.low + 1) symlow total,
                  high := ArithmeticCoderBase.narrowedHigh s.low (s.high - s.low + 1) symhigh total,
                  ext := s.ext }) :
    ∃ s', ArithmeticCoderBase.update n ops freqs symbol s = .ok s' ∧
      s'.low < half_range n ∧ half_range n ≤ s'.high ∧ s'.high < full_range n ∧
      minimum_range n ≤ s'.high - s'.low + 1 ∧ s'.high - s'.low + 1 ≤ full_range n ∧
      (s'.low < quarter_range n ∨ half_range n + quarter_range n ≤ s'.high) ∧ R s' := by
  have hHF : half_range n < full_range n := by
    rw [full_range_eq, half_range_eq hn]
    exact Nat.pow_lt_pow_right one_lt_two (by omega)
  have hlF : s.low < full_range n := lt_of_lt_of_le hl (le_of_lt hHF)
  have hlh : s.low < s.high := lt_of_lt_of_le hl hh1
  have htotpos : 0 < total := by omega
  set range := s.high - s.low + 1 with hrange
  have htr : total ≤ range := by
    have : maximum_total n = minimum_range n := rfl
    omega
  have hrangeF : range ≤ full_range n := by omega
  set nl := ArithmeticCoderBase.narrowedLow s.low range symlow total with hnl
  set nh := ArithmeticCoderBase.narrowedHigh s.low range symhigh total with hnh
  have hdivs : symlow * range / total + 1 ≤ symhigh * range / total := by
    have ha : 1 ≤ range / total := (Nat.one_le_div_iff htotpos).mpr htr
    have hb : symlow * range / total + range / total ≤ (symlow * range + range) / total := by
      rw [Nat.le_div_iff_mul_le htotpos, add_mul]
      exact Nat.add_le_add (Nat.div_mul_le_self _ _) (Nat.div_mul_le_self _ _)
    have hc : symlow * range + range ≤ symhigh * range := by
      calc symlow * range + range = (symlow + 1) * range := by ring
      _ ≤ symhigh * range := Nat.mul_le_mul_right _ (by omega)
    calc symlow * range / total + 1 ≤ symlow * range / total + range / total := by omega
    _ ≤ (symlow * range + range) / total := hb
    _ ≤ symhigh * range / total := Nat.div_le_div_right hc
  have hhr : symhigh * range / total ≤ range := by
    have h1 : symhigh * range ≤ total * range := Nat.mul_le_mul_right _ hsh
    have h2 : symhigh * range / total ≤ total * range / total := Nat.div_le_div_right h1
    rwa [mul_comm total range, Nat.mul_div_cancel _ htotpos] at h2
  have hnl_nh : nl ≤ nh := by
    rw [hnl, hnh, ArithmeticCoderBase.narrowedLow, ArithmeticCoderBase.narrowedHigh]
    omega
  have hnh_hi : nh ≤ s.high := by
    rw [hnh, ArithmeticCoderBase.narrowedHigh]
    omega
  have hfuel : ∀ r : Nat, half_range n < 2 ^ (n + 1) * (r + 1) := by
    intro r
    have h1 : half_range n < 2 ^ (n + 1) := by
      rw [half_range_eq hn]
      exact Nat.pow_lt_pow_right one_lt_two (by omega)
    calc half_range n < 2 ^ (n + 1) := h1
    _ = 2 ^ (n + 1) * 1 := by ring
    _ ≤ 2 ^ (n + 1) * (r + 1) := Nat.mul_le_mul_left _ (by omega)
  obtain ⟨s₁, hrun1, h1a, h1b, h1c, h1R⟩ :=
    updateLoop1_spec ops R hn hshift hR1 (n + 1) ⟨nl, nh, s.ext⟩
      hnl_nh (lt_of_le_of_lt hnh_hi hh2) hRinit
      (by
        have := hfuel (nh - nl)
        have he : nh - nl + 1 = (nh - nl) + 1 := rfl
        simpa using this)
  obtain ⟨s₂, hrun2, h2a, h2b, h2c, h2d, h2e, h2R⟩ :=
    updateLoop2_spec ops R hn hunf hR2 (n + 1) s₁ h1a h1b h1c h1R
      (by
        have := hfuel (s₁.high - s₁.low)
        simpa using this)
  refine ⟨s₂, ?_, h2a, h2b, h2c, h2d, by omega, h2e, h2R⟩
  have hstate : ¬ (s.low ≥ s.high ∨ s.low &&& state_mask n ≠ s.low ∨
      s.high &&& state_mask n ≠ s.high) := by
    push_neg
    refine ⟨hlh, ?_, ?_⟩
    · rw [and_state_mask]
      exact Nat.mod_eq_of_lt (by rw [← full_range_eq]; exact hlF)
    · rw [and_state_mask]
      exact Nat.mod_eq_of_lt (by rw [← full_range_eq]; exact hh2)
  have hrcheck : ¬ ¬ (minimum_range n ≤ s.high - s.low + 1 ∧
      s.high - s.low + 1 ≤ full_range n) := by
    rw [not_not]
    exact ⟨hmin, hrangeF⟩
  rw [ArithmeticCoderBase.update, if_neg hstate, if_neg hrcheck, htot, except_bind_ok,
      hlowq, except_bind_ok, hhighq, except_bind_ok, if_neg (by omega : ¬ symlow = symhigh),
      if_neg (by omega : ¬ total > maximum_total n)]
  show (updateLoop1 n ops (n + 1) { low := nl, high := nh, ext := s.ext } >>=
      fun s1 => updateLoop2 n ops (n + 1) s1) = Except.ok s₂
  rw [hrun1, except_bind_ok]
  exact hrun2

/-! ## The abstract FrequencyTable contract (arithmeticcoding.py lines 228-264)

The coder-level claims quantify over every frequency table.  A table is
determined, as far as the interface of lines 232-264 is concerned, by
its symbol limit and the frequency of each symbol: `get_low(s)` is the
sum of the frequencies of the symbols strictly below `s` (line 256),
`get_high(s)` adds `freq(s)` (line 261), `get_total` is the sum over
all symbols (line 251), and every concrete table of the source raises
ValueError on an out-of-range symbol. -/
structure FrequencyTable where
  symbol_limit : Nat
  freq : Nat → Nat

/-- The cumulative frequency below `s` (sum of `freq 0 .. freq (s-1)`). -/
def FrequencyTable.cum (t : FrequencyTable) : Nat → Nat
  | 0 => 0
  | s + 1 => FrequencyTable.cum t s + t.freq s

theorem FrequencyTable.cum_mono (t : FrequencyTable) : ∀ {s u : Nat}, s ≤ u →
    t.cum s ≤ t.cum u := by
  intro s u h
  induction u with
  | zero =>
    have hs : s = 0 := by omega
    subst hs
    exact le_refl _
  | succ u ih =>
    rcases Nat.lt_or_ge s (u + 1) with h1 | h2
    · calc t.cum s ≤ t.cum u := ih (by omega)
      _ ≤ t.cum (u + 1) := by rw [FrequencyTable.cum]; omega
    · have hs : s = u + 1 := by omega
      subst hs
      exact le_refl _

/-- A `FrequencyTable` as a duck-typed table object. -/
def FrequencyTable.toRaw (t : FrequencyTable) : RawTable where
  get_symbol_limit := .ok (t.symbol_limit : Int)
  get := fun s =>
    if 0 ≤ s ∧ s < (t.symbol_limit : Int) then .ok (t.freq s.toNat : Int)
    else .error .symbolOutOfRange
  get_total := .ok (t.cum t.symbol_limit : Int)
  get_low := fun s =>
    if 0 ≤ s ∧ s < (t.symbol_limit : Int) then .ok (t.cum s.toNat : Int)
    else .error .symbolOutOfRange
  get_high := fun s =>
    if 0 ≤ s ∧ s < (t.symbol_limit : Int) then .ok (t.cum (s.toNat + 1) : Int)
    else .error .symbolOutOfRange

theorem except_map_ok {ε α β : Type} (f : α → β) (a : α) :
    (Except.map f (Except.ok a) : Except ε β) = .ok (f a) := rfl

theorem checkedView_limit (t : FrequencyTable) (h : 0 < t.symbol_limit) :
    (PyFreqTable.raw t.toRaw).checkedView.get_symbol_limit = .ok t.symbol_limit := by
  simp only [PyFreqTable.checkedView]
  unfold CheckedFrequencyTable.get_symbol_limit FrequencyTable.toRaw
  have h1 : ¬ ((t.symbol_limit : Int) ≤ 0) := by
    simp only [not_le]
    exact_mod_cast h
  rw [except_bind_ok, if_neg h1]
  rfl

theorem checkedView_total (t : FrequencyTable) :
    (PyFreqTable.raw t.toRaw).checkedView.get_total = .ok (t.cum t.symbol_limit) := by
  simp only [PyFreqTable.checkedView]
  unfold CheckedFrequencyTable.get_total FrequencyTable.toRaw
  have h1 : ¬ ((t.cum t.symbol_limit : Int) < 0) := by
    simp only [not_lt]
    exact Int.natCast_nonneg _
  rw [except_bind_ok, if_neg h1]
  rfl

theorem checkedView_get_low (t : FrequencyTable) {s : Nat} (hs : s < t.symbol_limit) :
    (PyFreqTable.raw t.toRaw).checkedView.get_low s = .ok (t.cum s) := by
  have hlim : ¬ ((t.symbol_limit : Int) ≤ 0) := by
    simp only [not_le]
    have h0 : 0 < t.symbol_limit := by omega
    exact_mod_cast h0
  simp only [PyFreqTable.checkedView]
  unfold CheckedFrequencyTable.get_low
    CheckedFrequencyTable.is_symbol_in_range CheckedFrequencyTable.get_symbol_limit
    FrequencyTable.toRaw
  have hin : (0 ≤ (s : Int) ∧ (s : Int) < (t.symbol_limit : Int)) := by
    constructor
    · exact Int.natCast_nonneg _
    · exact_mod_cast hs
  have hmono1 : t.cum s ≤ t.cum (s + 1) := t.cum_mono (by omega)
  have hmono2 : t.cum (s + 1) ≤ t.cum t.symbol_limit := t.cum_mono (by omega)
  have hvalid : ¬ ¬ (0 ≤ (t.cum (s : Int).toNat : Int) ∧
      (t.cum (s : Int).toNat : Int) ≤ (t.cum ((s : Int).toNat + 1) : Int) ∧
      (t.cum ((s : Int).toNat + 1) : Int) ≤ (t.cum t.symbol_limit : Int)) := by
    rw [not_not, Int.toNat_natCast]
    refine ⟨Int.natCast_nonneg _, ?_, ?_⟩
    · exact_mod_cast hmono1
    · exact_mod_cast hmono2
  simp [hin, hlim, hvalid, except_bind_ok, Int.toNat_natCast]
  have hcond : ¬ (t.cum s ≤ t.cum (s + 1) → t.cum t.symbol_limit < t.cum (s + 1)) := by
    intro hc
    exact absurd (hc hmono1) (by omega)
  rw [if_neg hcond]
  rfl

theorem checkedView_get_high (t : FrequencyTable) {s : Nat} (hs : s < t.symbol_limit) :
    (PyFreqTable.raw t.toRaw).checkedView.get_high s = .ok (t.cum (s + 1)) := by
  have hlim : ¬ ((t.symbol_limit : Int) ≤ 0) := by
    simp only [not_le]
    have : 0 < t.symbol_limit := by omega
    exact_mod_cast this
  simp only [PyFreqTable.checkedView]
  unfold CheckedFrequencyTable.get_high
    CheckedFrequencyTable.is_symbol_in_range CheckedFrequencyTable.get_symbol_limit
    FrequencyTable.toRaw
  have hin : (0 ≤ (s : Int) ∧ (s : Int) < (t.symbol_limit : Int)) := by
    constructor
    · exact Int.natCast_nonneg _
    · exact_mod_cast hs
  have hmono1 : t.cum s ≤ t.cum (s + 1) := t.cum_mono (by omega)
  have hmono2 : t.cum (s + 1) ≤ t.cum t.symbol_limit := t.cum_mono (by omega)
  have hvalid : ¬ ¬ (0 ≤ (t.cum (s : Int).toNat : Int) ∧
      (t.cum (s : Int).toNat : Int) ≤ (t.cum ((s : Int).toNat + 1) : Int) ∧
      (t.cum ((s : Int).toNat + 1) : Int) ≤ (t.cum t.symbol_limit : Int)) := by
    rw [not_not, Int.toNat_natCast]
    refine ⟨Int.natCast_nonneg _, ?_, ?_⟩
    · exact_mod_cast hmono1
    · exact_mod_cast hmono2
  simp [hin, hlim, hvalid, except_bind_ok, Int.toNat_natCast]
  have hcond : ¬ (t.cum s ≤ t.cum (s + 1) → t.cum t.symbol_limit < t.cum (s + 1)) := by
    intro hc
    exact absurd (hc hmono1) (by omega)
  rw [if_neg hcond]
  rfl

/-! ## The encoder's and decoder's shift/underflow callbacks succeed,
and the decoder's keep `code` inside `[low, high]` -/

theorem BitOutputStream.write_ok (s : BitOutputStream) (b : Nat) (hb : b ≤ 1) :
    ∃ s', s.write b = .ok s' := by
  unfold BitOutputStream.write
  rw [if_neg (by omega : ¬ (b ≠ 0 ∧ b ≠ 1))]
  split <;> exact ⟨_, rfl⟩

theorem BitOutputStream.writeN_ok (b : Nat) (hb : b ≤ 1) :
    ∀ (count : Nat) (s : BitOutputStream), ∃ s', s.writeN b count = .ok s' := by
  intro count
  induction count with
  | zero => intro s; exact ⟨s, rfl⟩
  | succ k ih =>
    intro s
    obtain ⟨s1, h1⟩ := s.write_ok b hb
    unfold BitOutputStream.writeN
    rw [h1, except_bind_ok]
    exact ih s1

theorem encoder_shift_ok {n : Nat} (hn : 1 ≤ n) (low : Nat) (e : EncoderExt)
    (hl : low < full_range n) : ∃ e', ArithmeticEncoder.shift n low e = .ok e' := by
  have hbit : low >>> (n - 1) ≤ 1 := by
    rw [Nat.shiftRight_eq_div_pow]
    have hd : low / 2 ^ (n - 1) < 2 := by
      rw [Nat.div_lt_iff_lt_mul (Nat.pos_pow_of_pos _ (by norm_num))]
      calc low < full_range n := hl
      _ = 2 ^ n := full_range_eq n
      _ = 2 * 2 ^ (n - 1) := by
          conv_lhs => rw [show n = (n - 1) + 1 by omega, pow_succ]
          ring
    omega
  obtain ⟨o1, h1⟩ := e.output.write_ok _ hbit
  have hbit2 : (low >>> (n - 1)) ^^^ 1 ≤ 1 := by
    rcases Nat.le_one_iff_eq_zero_or_eq_one.mp hbit with h | h <;> rw [h] <;> decide
  obtain ⟨o2, h2⟩ := BitOutputStream.writeN_ok _ hbit2 e.num_underflow o1
  refine ⟨{ output := o2, num_underflow := 0 }, ?_⟩
  unfold ArithmeticEncoder.shift
  show (do
    let out ← e.output.write (low >>> (n - 1))
    let out ← out.writeN ((low >>> (n - 1)) ^^^ 1) e.num_underflow
    pure { output := out, num_underflow := 0 } : PyResult EncoderExt) =
    Except.ok { output := o2, num_underflow := 0 }
  rw [h1, except_bind_ok, h2, except_bind_ok]
  rfl

theorem decoder_shift_ok (n low : Nat) (e : DecoderExt) :
    ∃ e', ArithmeticDecoder.shift n low e = .ok e' := ⟨_, rfl⟩

theorem ArithmeticDecoder.underflow_ok (n : Nat) (e : DecoderExt) :
    ∃ e', ArithmeticDecoder.underflow n e = .ok e' := ⟨_, rfl⟩

theorem BitInputStream.read_fst_cases (s : BitInputStream) :
    (s.read).1 = -1 ∨ (0 ≤ (s.read).1 ∧ (s.read).1 ≤ 1) := by
  unfold BitInputStream.read
  split
  · left; rfl
  · split
    · split
      · left; rfl
      · rename_i hd tl heq
        right
        dsimp only
        constructor
        · exact_mod_cast Nat.zero_le _
        · have h1 : (hd >>> 7) &&& 1 ≤ 1 := by
            rw [Nat.and_one_is_mod]
            omega
          exact_mod_cast h1
    · right
      dsimp only
      constructor
      · exact_mod_cast Nat.zero_le _
      · have h1 : (s.currentbyte.toNat >>> (s.numbitsremaining - 1)) &&& 1 ≤ 1 := by
          rw [Nat.and_one_is_mod]
          omega
        exact_mod_cast h1

theorem ArithmeticDecoder.read_code_bit_spec (e : DecoderExt) :
    (ArithmeticDecoder.read_code_bit e).1 ≤ 1 ∧
    (ArithmeticDecoder.read_code_bit e).2.code = e.code := by
  unfold ArithmeticDecoder.read_code_bit
  rcases hr : e.input.read with ⟨temp, inp⟩
  dsimp only
  refine ⟨?_, rfl⟩
  rcases e.input.read_fst_cases with h | h <;> rw [hr] at h <;> simp only at h
  · rw [if_pos h]
    decide
  · rw [if_neg (by omega)]
    omega

/-- The decoder's coupling invariant: the code register lies inside the
current range (source comment at line 167). -/
def codeInRange (st : CoderState DecoderExt) : Prop :=
  st.low ≤ st.ext.code ∧ st.ext.code ≤ st.high

theorem decoder_shift_keeps_code {n : Nat} (hn : 1 ≤ n) :
    ∀ s : CoderState DecoderExt, s.low ≤ s.high → s.high < full_range n →
    ((s.low ^^^ s.high) &&& half_range n = 0) →
    ∀ e', ArithmeticDecoder.shift n s.low s.ext = .ok e' →
    codeInRange s →
    codeInRange { low := (s.low <<< 1) &&& state_mask n,
                  high := ((s.high <<< 1) &&& state_mask n) ||| 1, ext := e' } := by
  intro s hlh hhf hg e' he' hR
  obtain ⟨hble, hcode⟩ := ArithmeticDecoder.read_code_bit_spec s.ext
  unfold ArithmeticDecoder.shift at he'
  rcases hrb : ArithmeticDecoder.read_code_bit s.ext with ⟨b, e₀⟩
  rw [hrb] at he' hble hcode
  simp only at hble hcode
  have he'' : { e₀ with code := ((e₀.code <<< 1) &&& state_mask n) ||| b } = e' := by
    injection he'
  have hcF : s.ext.code < full_range n := lt_of_le_of_lt (le_trans hR.2 (le_refl _)) hhf
  have hFH : full_range n = 2 * half_range n := by
    rw [full_range_eq, half_range_eq hn]
    conv_lhs => rw [show n = (n - 1) + 1 by omega, pow_succ]
    ring
  have hgi := (loop1_guard_iff hn (lt_of_le_of_lt hlh hhf |>.trans_le (by rw [full_range_eq]))
      (by rw [← full_range_eq]; exact hhf)).mp hg
  have hcode' : e'.code = 2 * (s.ext.code % 2 ^ (n - 1)) + b := by
    rw [← he'']
    simp only
    rw [hcode, shiftLeft_one_eq, and_state_mask, mod_half_eq _ hn, two_mul_lor_le_one _ _ hble]
  have hlow' : (s.low <<< 1) &&& state_mask n = 2 * (s.low % 2 ^ (n - 1)) := by
    rw [shiftLeft_one_eq, and_state_mask, mod_half_eq _ hn]
  have hhigh' : ((s.high <<< 1) &&& state_mask n) ||| 1 = 2 * (s.high % 2 ^ (n - 1)) + 1 := by
    rw [shiftLeft_one_eq, and_state_mask, mod_half_eq _ hn, two_mul_lor_one]
  have hH := half_range_eq hn
  rw [codeInRange]
  simp only [hlow', hhigh', hcode']
  rw [hH] at hFH
  rw [full_range_eq] at hFH hhf hcF
  obtain ⟨hc1, hc2⟩ := hR
  by_cases hp : 2 ^ (n - 1) ≤ s.low
  · have hq : 2 ^ (n - 1) ≤ s.high := hgi.mp hp
    have hcq : 2 ^ (n - 1) ≤ s.ext.code := le_trans hp hc1
    have hml : s.low % 2 ^ (n - 1) = s.low - 2 ^ (n - 1) := by
      rw [Nat.mod_eq_sub_mod hp]
      exact Nat.mod_eq_of_lt (by omega)
    have hmh : s.high % 2 ^ (n - 1) = s.high - 2 ^ (n - 1) := by
      rw [Nat.mod_eq_sub_mod hq]
      exact Nat.mod_eq_of_lt (by omega)
    have hmc : s.ext.code % 2 ^ (n - 1) = s.ext.code - 2 ^ (n - 1) := by
      rw [Nat.mod_eq_sub_mod hcq]
      exact Nat.mod_eq_of_lt (by omega)
    rw [hml, hmh, hmc]
    omega
  · have hq : ¬ 2 ^ (n - 1) ≤ s.high := fun hc => hp (hgi.mpr hc)
    have hml : s.low % 2 ^ (n - 1) = s.low := Nat.mod_eq_of_lt (by omega)
    have hmh : s.high % 2 ^ (n - 1) = s.high := Nat.mod_eq_of_lt (by omega)
    have hmc : s.ext.code % 2 ^ (n - 1) = s.ext.code := Nat.mod_eq_of_lt (by omega)
    rw [hml, hmh, hmc]
    omega

theorem state_mask_shiftRight {n : Nat} (hn : 1 ≤ n) :
    state_mask n >>> 1 = 2 ^ (n - 1) - 1 := by
  rw [state_mask_eq, Nat.shiftRight_one]
  have h1 : (2 : Nat) ^ n = 2 * 2 ^ (n - 1) := by
    conv_lhs => rw [show n = (n - 1) + 1 by omega, pow_succ]
    ring
  have h2 : (1 : Nat) ≤ 2 ^ (n - 1) := Nat.one_le_two_pow
  rw [show (2 : Nat) ^ n - 1 = 2 * (2 ^ (n - 1) - 1) + 1 by omega]
  rw [Nat.mul_add_div (by norm_num)]
  omega

theorem loop2_body_low {n : Nat} (h2 : 2 ≤ n) {low : Nat}
    (hql : 2 ^ (n - 2) ≤ low) (hl : low < 2 ^ (n - 1)) :
    (low <<< 1) ^^^ half_range n = 2 * low - 2 ^ (n - 1) := by
  rw [shiftLeft_one_eq, half_range_eq (by omega : 1 ≤ n)]
  have hHQ : (2 : Nat) ^ (n - 1) = 2 * 2 ^ (n - 2) := by
    conv_lhs => rw [show n - 1 = (n - 2) + 1 by omega, pow_succ]
    ring
  have hr : 2 * low - 2 ^ (n - 1) < 2 ^ (n - 1) := by omega
  conv_lhs => rw [show 2 * low = 2 ^ (n - 1) + (2 * low - 2 ^ (n - 1)) by omega]
  exact xor_two_pow_add _ _ hr

theorem loop2_body_high {n : Nat} (h2 : 2 ≤ n) {high : Nat}
    (hh1 : 2 ^ (n - 1) ≤ high) (hqh : high < 2 ^ (n - 1) + 2 ^ (n - 2)) :
    ((high ^^^ half_range n) <<< 1) ||| half_range n ||| 1 =
      2 * (high - 2 ^ (n - 1)) + 2 ^ (n - 1) + 1 := by
  rw [half_range_eq (by omega : 1 ≤ n)]
  have hHQ : (2 : Nat) ^ (n - 1) = 2 * 2 ^ (n - 2) := by
    conv_lhs => rw [show n - 1 = (n - 2) + 1 by omega, pow_succ]
    ring
  have hr2 : high - 2 ^ (n - 1) < 2 ^ (n - 1) := by omega
  have hx : high ^^^ 2 ^ (n - 1) = high - 2 ^ (n - 1) := by
    conv_lhs => rw [show high = 2 ^ (n - 1) + (high - 2 ^ (n - 1)) by omega]
    exact xor_two_pow_add _ _ hr2
  rw [hx, shiftLeft_one_eq]
  have h2r : 2 * (high - 2 ^ (n - 1)) < 2 ^ (n - 1) := by omega
  rw [lor_two_pow_of_lt _ _ h2r]
  rw [show 2 * (high - 2 ^ (n - 1)) + 2 ^ (n - 1) =
      2 * ((high - 2 ^ (n - 1)) + 2 ^ (n - 2)) by omega]
  rw [two_mul_lor_one]

theorem decoder_underflow_keeps_code {n : Nat} (hn : 1 ≤ n) :
    ∀ s : CoderState DecoderExt, s.low < half_range n → half_range n ≤ s.high →
    s.high < full_range n →
    (s.low &&& (s.high ^^^ state_mask n) &&& quarter_range n ≠ 0) →
    ∀ e', ArithmeticDecoder.underflow n s.ext = .ok e' →
    codeInRange s →
    codeInRange { low := (s.low <<< 1) ^^^ half_range n,
                  high := ((s.high ^^^ half_range n) <<< 1) ||| half_range n ||| 1,
                  ext := e' } := by
  intro s hl hh1 hh2 hg e' he' hR
  have h2 : 2 ≤ n := quarter_ne_zero_two_le hn (fun hq => by
    rw [hq, Nat.and_zero] at hg
    exact hg rfl)
  obtain ⟨hble, hcode⟩ := ArithmeticDecoder.read_code_bit_spec s.ext
  unfold ArithmeticDecoder.underflow at he'
  rcases hrb : ArithmeticDecoder.read_code_bit s.ext with ⟨b, e₀⟩
  rw [hrb] at he' hble hcode
  simp only at hble hcode
  have he'' : { e₀ with code := (e₀.code &&& half_range n) |||
      ((e₀.code <<< 1) &&& (state_mask n >>> 1)) ||| b } = e' := by
    injection he'
  have hH := half_range_eq (by omega : 1 ≤ n)
  have hQpow : (2 : Nat) ^ (n - 1) = 2 * 2 ^ (n - 2) := by
    conv_lhs => rw [show n - 1 = (n - 2) + 1 by omega, pow_succ]
    ring
  have hgi := (@loop2_guard_iff n s.low s.high h2
    (by rw [← hH]; exact hl) (by rw [← hH]; exact hh1)
    (by rw [← full_range_eq]; exact hh2)).mp hg
  obtain ⟨hql, hqh⟩ := hgi
  obtain ⟨hc1, hc2⟩ := hR
  have hcF : s.ext.code < 2 ^ n := by
    rw [← full_range_eq]
    exact lt_of_le_of_lt hc2 hh2
  have hmaskr : state_mask n >>> 1 = 2 ^ (n - 1) - 1 := state_mask_shiftRight (by omega)
  have hterm2 : (s.ext.code <<< 1) &&& (state_mask n >>> 1) =
      2 * (s.ext.code % 2 ^ (n - 2)) := by
    rw [hmaskr, shiftLeft_one_eq, Nat.and_pow_two_sub_one_eq_mod]
    have hmm := @mod_half_eq s.ext.code (n - 1) (by omega)
    rw [show n - 1 - 1 = n - 2 by omega] at hmm
    exact hmm
  have hand : s.ext.code &&& half_range n =
      (if 2 ^ (n - 1) ≤ s.ext.code then 2 ^ (n - 1) else 0) := by
    rw [hH, Nat.and_two_pow,
        @testBit_eq_decide_le (n - 1) s.ext.code
          (by rw [show n - 1 + 1 = n by omega]; exact hcF)]
    by_cases hc : 2 ^ (n - 1) ≤ s.ext.code <;> simp [hc]
  have hcodeQ : 2 ^ (n - 2) ≤ s.ext.code := le_trans hql hc1
  have hcodeHQ : s.ext.code < 2 ^ (n - 1) + 2 ^ (n - 2) := lt_of_le_of_lt hc2 hqh
  have hcode' : e'.code = 2 * s.ext.code - 2 ^ (n - 1) + b := by
    rw [← he'']
    simp only
    rw [hcode, hterm2, hand]
    by_cases hc : 2 ^ (n - 1) ≤ s.ext.code
    · rw [if_pos hc]
      have hm : s.ext.code % 2 ^ (n - 2) = s.ext.code - 2 ^ (n - 1) := by
        rw [Nat.mod_eq_sub_mod (by omega), Nat.mod_eq_sub_mod (by omega),
            Nat.mod_eq_of_lt (by omega)]
        omega
      rw [hm]
      rw [Nat.lor_comm (2 ^ (n - 1)), lor_two_pow_of_lt _ _ (by omega)]
      rw [show 2 * (s.ext.code - 2 ^ (n - 1)) + 2 ^ (n - 1) =
          2 * ((s.ext.code - 2 ^ (n - 1)) + 2 ^ (n - 2)) by omega]
      rw [two_mul_lor_le_one _ _ hble]
      omega
    · rw [if_neg hc]
      have hm : s.ext.code % 2 ^ (n - 2) = s.ext.code - 2 ^ (n - 2) := by
        rw [Nat.mod_eq_sub_mod (by omega), Nat.mod_eq_of_lt (by omega)]
      rw [hm, Nat.zero_or, two_mul_lor_le_one _ _ hble]
      omega
  have hlow' := loop2_body_low h2 hql (by rw [← hH]; exact hl)
  have hhigh' := loop2_body_high h2 (by rw [← hH]; exact hh1) hqh
  rw [codeInRange]
  simp only [hlow', hhigh', hcode']
  rw [hH] at hl hh1
  constructor
  · omega
  · omega

theorem bind_ok_elim {ε α β : Type} {x : Except ε α} {f : α → Except ε β} {v : β}
    (h : (x >>= f) = .ok v) : ∃ a, x = .ok a ∧ f a = .ok v := by
  cases x with
  | error e =>
    rw [show ((Except.error e : Except ε α) >>= f) = Except.error e from rfl] at h
    exact absurd h (by simp)
  | ok a => exact ⟨a, rfl, h⟩

theorem cum_succ (t : FrequencyTable) (s : Nat) :
    t.cum (s + 1) = t.cum s + t.freq s := rfl

/-- The update call made by `ArithmeticEncoder.write` succeeds and
restores the range invariants, for any contract-conforming table whose
total fits and whose symbol has nonzero frequency. -/
theorem encoder_update_ok {n : Nat} (hn : 1 ≤ n) (t : FrequencyTable) (symbol : Nat)
    (s : CoderState EncoderExt)
    (hsym : symbol < t.symbol_limit) (hfreq : 0 < t.freq symbol)
    (htmax : t.cum t.symbol_limit ≤ maximum_total n)
    (hl : s.low < half_range n) (hh1 : half_range n ≤ s.high) (hh2 : s.high < full_range n)
    (hmin : minimum_range n ≤ s.high - s.low + 1) :
    ∃ s', ArithmeticCoderBase.update n (encoderOps n)
        (PyFreqTable.raw t.toRaw).checkedView symbol s = .ok s' ∧
      s'.low < half_range n ∧ half_range n ≤ s'.high ∧ s'.high < full_range n ∧
      minimum_range n ≤ s'.high - s'.low + 1 ∧ s'.high - s'.low + 1 ≤ full_range n ∧
      (s'.low < quarter_range n ∨ half_range n + quarter_range n ≤ s'.high) := by
  have hsl : t.cum symbol < t.cum (symbol + 1) := by
    rw [cum_succ]
    omega
  have hsh : t.cum (symbol + 1) ≤ t.cum t.symbol_limit := t.cum_mono (by omega)
  obtain ⟨s', hrun, h1, h2, h3, h4, h5, h6, _⟩ :=
    update_ok_spec (encoderOps n) (fun _ => True) hn
      (fun low ext hlt => encoder_shift_ok hn low ext hlt)
      (fun _ _ _ _ _ _ _ => trivial)
      (fun ext => ⟨_, rfl⟩)
      (fun _ _ _ _ _ _ _ _ => trivial)
      (PyFreqTable.raw t.toRaw).checkedView symbol s
      (t.cum t.symbol_limit) (t.cum symbol) (t.cum (symbol + 1))
      (checkedView_total t) (checkedView_get_low t hsym) (checkedView_get_high t hsym)
      hsl hsh htmax hl hh1 hh2 hmin trivial
  exact ⟨s', hrun, h1, h2, h3, h4, h5, h6⟩

/-- The update call made by `ArithmeticDecoder.read` succeeds and
restores the range invariants. -/
theorem decoder_update_ok {n : Nat} (hn : 1 ≤ n) (t : FrequencyTable) (symbol : Nat)
    (s : CoderState DecoderExt)
    (hsym : symbol < t.symbol_limit) (hfreq : 0 < t.freq symbol)
    (htmax : t.cum t.symbol_limit ≤ maximum_total n)
    (hl : s.low < half_range n) (hh1 : half_range n ≤ s.high) (hh2 : s.high < full_range n)
    (hmin : minimum_range n ≤ s.high - s.low + 1)
    (hcode1 : ArithmeticCoderBase.narrowedLow s.low (s.high - s.low + 1)
        (t.cum symbol) (t.cum t.symbol_limit) ≤ s.ext.code)
    (hcode2 : s.ext.code ≤ ArithmeticCoderBase.narrowedHigh s.low (s.high - s.low + 1)
        (t.cum (symbol + 1)) (t.cum t.symbol_limit)) :
    ∃ s', ArithmeticCoderBase.update n (decoderOps n)
        (PyFreqTable.raw t.toRaw).checkedView symbol s = .ok s' ∧
      s'.low < half_range n ∧ half_range n ≤ s'.high ∧ s'.high < full_range n ∧
      minimum_range n ≤ s'.high - s'.low + 1 ∧ s'.high - s'.low + 1 ≤ full_range n ∧
      (s'.low < quarter_range n ∨ half_range n + quarter_range n ≤ s'.high) ∧
      s'.low ≤ s'.ext.code ∧ s'.ext.code ≤ s'.high := by
  have hsl : t.cum symbol < t.cum (symbol + 1) := by
    rw [cum_succ]
    omega
  have hsh : t.cum (symbol + 1) ≤ t.cum t.symbol_limit := t.cum_mono (by omega)
  obtain ⟨s', hrun, h1, h2, h3, h4, h5, h6, hcode⟩ :=
    update_ok_spec (decoderOps n) codeInRange hn
      (fun low ext _ => decoder_shift_ok n low ext)
      (fun st ha hb hc e' he' hr => decoder_shift_keeps_code hn st ha hb hc e' he' hr)
      (fun ext => ArithmeticDecoder.underflow_ok n ext)
      (fun st ha hb hc hd e' he' hr => decoder_underflow_keeps_code hn st ha hb hc hd e' he' hr)
      (PyFreqTable.raw t.toRaw).checkedView symbol s
      (t.cum t.symbol_limit) (t.cum symbol) (t.cum (symbol + 1))
      (checkedView_total t) (checkedView_get_low t hsym) (checkedView_get_high t hsym)
      hsl hsh htmax hl hh1 hh2 hmin ⟨hcode1, hcode2⟩
  exact ⟨s', hrun, h1, h2, h3, h4, h5, h6, hcode.1, hcode.2⟩

/-- If `ArithmeticDecoder.read` returns a symbol, the final range check
of lines 203-204 passed, so the code register lies inside the updated
range. -/
theorem read_ok_code_in_range {n : Nat} {freqs : PyFreqTable} {s : CoderState DecoderExt}
    {sym : Nat} {s' : CoderState DecoderExt}
    (h : ArithmeticDecoder.read n freqs s = .ok (sym, s')) :
    s'.low ≤ s'.ext.code ∧ s'.ext.code ≤ s'.high := by
  unfold ArithmeticDecoder.read at h
  obtain ⟨total, h1, h⟩ := bind_ok_elim h
  split at h
  · simp at h
  dsimp only at h
  split at h
  · simp at h
  split at h
  · simp at h
  obtain ⟨limit, h2, h⟩ := bind_ok_elim h
  obtain ⟨se, h3, h⟩ := bind_ok_elim h
  obtain ⟨start, e⟩ := se
  dsimp only at h
  split at h
  · simp at h
  obtain ⟨symlow, h4, h⟩ := bind_ok_elim h
  obtain ⟨symhigh, h5, h⟩ := bind_ok_elim h
  split at h
  · simp at h
  obtain ⟨s₂, h6, h⟩ := bind_ok_elim h
  split at h
  · simp at h
  · rename_i hcheck
    rw [not_not] at hcheck
    have h7 : (sym, s') = (start, s₂) := by
      have := h
      simp only [pure, Except.pure] at this
      injection this with h8
      exact h8.symm
    have h8 : s' = s₂ := congrArg Prod.snd h7
    rw [h8]
    exact hcheck

/-- C3: for every starting state satisfying the coder invariants
(`low` and `high` are naturals, so `0 ≤ low` is implicit), every
contract-conforming frequency table with `0 < total ≤ maximum_total`,
and every in-range symbol with nonzero frequency, `update` returns and
re-establishes `low < half_range ≤ high < full_range` and
`minimum_range ≤ high − low + 1 ≤ full_range`, both for the encoder's
and for the decoder's concrete `shift`/`underflow`; and whenever
`ArithmeticDecoder.read` returns, `low ≤ code ≤ high` holds in the
returned state (the decoder re-checks this at lines 203-204 and read
only returns once it holds). -/
theorem update_preserves_coder_invariants :
    (∀ (n : Nat) (t : FrequencyTable) (symbol : Nat) (s : CoderState EncoderExt),
      1 ≤ n → symbol < t.symbol_limit → 0 < t.freq symbol →
      t.cum t.symbol_limit ≤ maximum_total n →
      s.low < half_range n → half_range n ≤ s.high → s.high < full_range n →
      minimum_range n ≤ s.high - s.low + 1 →
      ∃ s', ArithmeticCoderBase.update n (encoderOps n)
          (PyFreqTable.raw t.toRaw).checkedView symbol s = .ok s' ∧
        s'.low < half_range n ∧ half_range n ≤ s'.high ∧ s'.high < full_range n ∧
        minimum_range n ≤ s'.high - s'.low + 1 ∧ s'.high - s'.low + 1 ≤ full_range n) ∧
    (∀ (n : Nat) (t : FrequencyTable) (symbol : Nat) (s : CoderState DecoderExt),
      1 ≤ n → symbol < t.symbol_limit → 0 < t.freq symbol →
      t.cum t.symbol_limit ≤ maximum_total n →
      s.low < half_range n → half_range n ≤ s.high → s.high < full_range n →
      minimum_range n ≤ s.high - s.low + 1 →
      ∃ s', ArithmeticCoderBase.update n (decoderOps n)
          (PyFreqTable.raw t.toRaw).checkedView symbol s = .ok s' ∧
        s'.low < half_range n ∧ half_range n ≤ s'.high ∧ s'.high < full_range n ∧
        minimum_range n ≤ s'.high - s'.low + 1 ∧ s'.high - s'.low + 1 ≤ full_range n) ∧
    (∀ (n : Nat) (freqs : PyFreqTable) (s : CoderState DecoderExt) (sym : Nat)
        (s' : CoderState DecoderExt),
      ArithmeticDecoder.read n freqs s = .ok (sym, s') →
      s'.low ≤ s'.ext.code ∧ s'.ext.code ≤ s'.high) := by
  refine ⟨?_, ?_, ?_⟩
  · intro n t symbol s hn hsym hfreq htmax hl hh1 hh2 hmin
    obtain ⟨s', hrun, h1, h2, h3, h4, h5, _⟩ :=
      encoder_update_ok hn t symbol s hsym hfreq htmax hl hh1 hh2 hmin
    exact ⟨s', hrun, h1, h2, h3, h4, h5⟩
  · intro n t symbol s hn hsym hfreq htmax hl hh1 hh2 hmin
    have hsl : t.cum symbol < t.cum (symbol + 1) := by
      rw [cum_succ]
      omega
    have hsh : t.cum (symbol + 1) ≤ t.cum t.symbol_limit := t.cum_mono (by omega)
    obtain ⟨s', hrun, h1, h2, h3, h4, h5, _, _⟩ :=
      update_ok_spec (decoderOps n) (fun _ => True) hn
        (fun low ext _ => decoder_shift_ok n low ext)
        (fun _ _ _ _ _ _ _ => trivial)
        (fun ext => ArithmeticDecoder.underflow_ok n ext)
        (fun _ _ _ _ _ _ _ _ => trivial)
        (PyFreqTable.raw t.toRaw).checkedView symbol s
        (t.cum t.symbol_limit) (t.cum symbol) (t.cum (symbol + 1))
        (checkedView_total t) (checkedView_get_low t hsym) (checkedView_get_high t hsym)
        hsl hsh htmax hl hh1 hh2 hmin trivial
    exact ⟨s', hrun, h1, h2, h3, h4, h5⟩
  · intro n freqs s sym s' h
    exact read_ok_code_in_range h

/-- C3 witness: the three parts applied at concrete inputs (a two-symbol
table with unit frequencies; 32-bit encoder and decoder states; a
4-value decoder read that returns symbol 0). -/
theorem update_preserves_coder_invariants_witness :
    (∃ s', ArithmeticCoderBase.update 32 (encoderOps 32)
        (PyFreqTable.raw ({ symbol_limit := 2, freq := fun _ => 1 } :
          FrequencyTable).toRaw).checkedView 0
        { low := 0, high := state_mask 32,
          ext := { output := { output := [], currentbyte := 0, numbitsfilled := 0 },
                   num_underflow := 0 } } = .ok s' ∧
      s'.low < half_range 32 ∧ half_range 32 ≤ s'.high ∧ s'.high < full_range 32 ∧
      minimum_range 32 ≤ s'.high - s'.low + 1 ∧ s'.high - s'.low + 1 ≤ full_range 32) ∧
    (∃ s', ArithmeticCoderBase.update 32 (decoderOps 32)
        (PyFreqTable.raw ({ symbol_limit := 2, freq := fun _ => 1 } :
          FrequencyTable).toRaw).checkedView 0
        { low := 0, high := state_mask 32,
          ext := { code := 5, input := BitInputStream.init [] } } = .ok s' ∧
      s'.low < half_range 32 ∧ half_range 32 ≤ s'.high ∧ s'.high < full_range 32 ∧
      minimum_range 32 ≤ s'.high - s'.low + 1 ∧ s'.high - s'.low + 1 ≤ full_range 32) ∧
    ((CoderState.mk 0 3 (DecoderExt.mk 2 (BitInputStream.mk [] (-1) 0))).low ≤
        (CoderState.mk 0 3 (DecoderExt.mk 2 (BitInputStream.mk [] (-1) 0))).ext.code ∧
      (CoderState.mk 0 3 (DecoderExt.mk 2 (BitInputStream.mk [] (-1) 0))).ext.code ≤
        (CoderState.mk 0 3 (DecoderExt.mk 2 (BitInputStream.mk [] (-1) 0))).high) := by
  refine ⟨?_, ?_, ?_⟩
  · exact update_preserves_coder_invariants.1 32 _ 0 _ (by norm_num) (by decide) (by decide)
      (by decide) (by decide) (by decide) (by decide) (by decide)
  · exact update_preserves_coder_invariants.2.1 32 _ 0 _ (by norm_num) (by decide) (by decide)
      (by decide) (by decide) (by decide) (by decide) (by decide)
  · exact update_preserves_coder_invariants.2.2 2
      (PyFreqTable.raw ({ symbol_limit := 2, freq := fun _ => 1 } : FrequencyTable).toRaw)
      (CoderState.mk 0 3 (DecoderExt.mk 1 (BitInputStream.init []))) 0
      (CoderState.mk 0 3 (DecoderExt.mk 2 (BitInputStream.mk [] (-1) 0)))
      (by decide)

/-! ## C5: the range-narrowing step -/

/-- A table with frequencies [1, 2^30 + 1]: total 2^30 + 2, which is
exactly `maximum_total 32`. -/
def c5_table : FrequencyTable :=
  { symbol_limit := 2, freq := fun s => if s = 0 then 1 else 1073741825 }

/-- C5 counterexample: at the 32-bit state `low = 2^30 - 1`,
`high = 2^31` (which satisfies every coder invariant) and the table
`c5_table` (total = maximum_total, symbol 0 has nonzero frequency 1),
the narrowing formulas of lines 86-87 give
`new_low = new_high = low`, a width of 1, so the claim that the
narrowing preserves `minimum_range ≤ new_high - new_low + 1` fails:
the width 1 is far below `minimum_range 32 = 2^30 + 2`.  (The
subsequent renormalization loops restore the invariant; see the
amended theorem.) -/
theorem narrowing_below_minimum_range :
    ((1073741823 : Nat) < half_range 32 ∧ half_range 32 ≤ 2147483648 ∧
      (2147483648 : Nat) < full_range 32 ∧
      minimum_range 32 ≤ 2147483648 - 1073741823 + 1 ∧
      2147483648 - 1073741823 + 1 ≤ full_range 32) ∧
    (0 < c5_table.freq 0 ∧ c5_table.cum c5_table.symbol_limit ≤ maximum_total 32) ∧
    ArithmeticCoderBase.narrowedHigh 1073741823 (2147483648 - 1073741823 + 1)
        (c5_table.cum 1) (c5_table.cum c5_table.symbol_limit) -
      ArithmeticCoderBase.narrowedLow 1073741823 (2147483648 - 1073741823 + 1)
        (c5_table.cum 0) (c5_table.cum c5_table.symbol_limit) + 1 = 1 ∧
    (1 : Nat) < minimum_range 32 := by
  decide

/-- C5 amended: `update` narrows the range by exactly
`new_low = low + get_low(symbol) * range // total` and
`new_high = low + get_high(symbol) * range // total - 1` with floor
division and no other rounding — the whole of `update` is literally
that narrowing followed by the two renormalization loops — and the
narrowed width may drop below `minimum_range`, but by the time
`update` returns the loops have restored
`minimum_range ≤ high - low + 1 ≤ full_range`. -/
theorem update_narrowing_exact {n : Nat} (t : FrequencyTable) (symbol : Nat)
    (s : CoderState EncoderExt) (hn : 1 ≤ n) (hsym : symbol < t.symbol_limit)
    (hfreq : 0 < t.freq symbol) (htmax : t.cum t.symbol_limit ≤ maximum_total n)
    (hl : s.low < half_range n) (hh1 : half_range n ≤ s.high) (hh2 : s.high < full_range n)
    (hmin : minimum_range n ≤ s.high - s.low + 1) :
    ArithmeticCoderBase.update n (encoderOps n)
        (PyFreqTable.raw t.toRaw).checkedView symbol s =
      (updateLoop1 n (encoderOps n) (n + 1) (CoderState.mk
          (ArithmeticCoderBase.narrowedLow s.low (s.high - s.low + 1)
            (t.cum symbol) (t.cum t.symbol_limit))
          (ArithmeticCoderBase.narrowedHigh s.low (s.high - s.low + 1)
            (t.cum (symbol + 1)) (t.cum t.symbol_limit))
          s.ext) >>= updateLoop2 n (encoderOps n) (n + 1)) ∧
    (∃ s', ArithmeticCoderBase.update n (encoderOps n)
        (PyFreqTable.raw t.toRaw).checkedView symbol s = .ok s' ∧
      minimum_range n ≤ s'.high - s'.low + 1 ∧ s'.high - s'.low + 1 ≤ full_range n) := by
  have hHF : half_range n < full_range n := by
    rw [full_range_eq, half_range_eq hn]
    exact Nat.pow_lt_pow_right one_lt_two (by omega)
  have hsl : t.cum symbol < t.cum (symbol + 1) := by
    rw [cum_succ]
    omega
  have hstate : ¬ (s.low ≥ s.high ∨ s.low &&& state_mask n ≠ s.low ∨
      s.high &&& state_mask n ≠ s.high) := by
    push_neg
    refine ⟨lt_of_lt_of_le hl hh1, ?_, ?_⟩
    · rw [and_state_mask]
      exact Nat.mod_eq_of_lt (by rw [← full_range_eq]; omega)
    · rw [and_state_mask]
      exact Nat.mod_eq_of_lt (by rw [← full_range_eq]; exact hh2)
  have hrcheck : ¬ ¬ (minimum_range n ≤ s.high - s.low + 1 ∧
      s.high - s.low + 1 ≤ full_range n) := by
    rw [not_not]
    exact ⟨hmin, by omega⟩
  constructor
  · rw [ArithmeticCoderBase.update, if_neg hstate, if_neg hrcheck,
        checkedView_total t, except_bind_ok, checkedView_get_low t hsym, except_bind_ok,
        checkedView_get_high t hsym, except_bind_ok,
        if_neg (by omega : ¬ t.cum symbol = t.cum (symbol + 1)),
        if_neg (by omega : ¬ t.cum t.symbol_limit > maximum_total n)]
  · obtain ⟨s', hrun, _, _, _, h4, h5, _⟩ :=
      encoder_update_ok hn t symbol s hsym hfreq htmax hl hh1 hh2 hmin
    exact ⟨s', hrun, h4, h5⟩

/-- C5 amended, witness: the exact-narrowing equation and the restored
invariant at the counterexample input itself. -/
theorem update_narrowing_exact_witness :
    (ArithmeticCoderBase.update 32 (encoderOps 32)
        (PyFreqTable.raw c5_table.toRaw).checkedView 0
        (CoderState.mk 1073741823 2147483648
          (EncoderExt.mk (BitOutputStream.mk [] 0 0) 0)) =
      (updateLoop1 32 (encoderOps 32) 33 (CoderState.mk
          (ArithmeticCoderBase.narrowedLow 1073741823 (2147483648 - 1073741823 + 1)
            (c5_table.cum 0) (c5_table.cum c5_table.symbol_limit))
          (ArithmeticCoderBase.narrowedHigh 1073741823 (2147483648 - 1073741823 + 1)
            (c5_table.cum 1) (c5_table.cum c5_table.symbol_limit))
          (EncoderExt.mk (BitOutputStream.mk [] 0 0) 0)) >>=
        updateLoop2 32 (encoderOps 32) 33)) ∧
    (∃ s', ArithmeticCoderBase.update 32 (encoderOps 32)
        (PyFreqTable.raw c5_table.toRaw).checkedView 0
        (CoderState.mk 1073741823 2147483648
          (EncoderExt.mk (BitOutputStream.mk [] 0 0) 0)) = .ok s' ∧
      minimum_range 32 ≤ s'.high - s'.low + 1 ∧ s'.high - s'.low + 1 ≤ full_range 32) :=
  update_narrowing_exact c5_table 0
    (CoderState.mk 1073741823 2147483648 (EncoderExt.mk (BitOutputStream.mk [] 0 0) 0))
    (by norm_num) (by decide) (by decide) (by decide) (by decide) (by decide) (by decide)
    (by decide)

/-! ## C6: when `ArithmeticEncoder.write` succeeds -/

/-- C6: for every valid encoder state and contract-conforming frequency
table (in-range symbol), `write(freqs, symbol)` succeeds iff
`get_total() ≤ maximum_total` and `get_high(symbol) > get_low(symbol)`;
when the symbol's frequency is zero it fails with the
zero-frequency ValueError (that check runs first), and when the
frequency is nonzero and `total > maximum_total` — in particular at
`total = maximum_total + 1` — it fails with the total-too-large
ValueError.  In both failure cases the error is raised by the checks of
lines 76-83, before `self.low` or `self.high` are assigned (lines
88-89); in this embedding an error return carries no updated state. -/
theorem write_succeeds_iff {n : Nat} (t : FrequencyTable) (symbol : Nat)
    (s : CoderState EncoderExt) (hn : 1 ≤ n) (hsym : symbol < t.symbol_limit)
    (hl : s.low < half_range n) (hh1 : half_range n ≤ s.high) (hh2 : s.high < full_range n)
    (hmin : minimum_range n ≤ s.high - s.low + 1) :
    ((t.cum t.symbol_limit ≤ maximum_total n ∧ 0 < t.freq symbol) ↔
      ∃ s', ArithmeticEncoder.write n (.raw t.toRaw) symbol s = .ok s') ∧
    (t.freq symbol = 0 →
      ArithmeticEncoder.write n (.raw t.toRaw) symbol s = .error .zeroFrequency) ∧
    (0 < t.freq symbol → maximum_total n < t.cum t.symbol_limit →
      ArithmeticEncoder.write n (.raw t.toRaw) symbol s = .error .totalTooLarge) := by
  have hstate : ¬ (s.low ≥ s.high ∨ s.low &&& state_mask n ≠ s.low ∨
      s.high &&& state_mask n ≠ s.high) := by
    have hHF : half_range n < full_range n := by
      rw [full_range_eq, half_range_eq hn]
      exact Nat.pow_lt_pow_right one_lt_two (by omega)
    push_neg
    refine ⟨lt_of_lt_of_le hl hh1, ?_, ?_⟩
    · rw [and_state_mask]
      exact Nat.mod_eq_of_lt (by rw [← full_range_eq]; omega)
    · rw [and_state_mask]
      exact Nat.mod_eq_of_lt (by rw [← full_range_eq]; exact hh2)
  have hrcheck : ¬ ¬ (minimum_range n ≤ s.high - s.low + 1 ∧
      s.high - s.low + 1 ≤ full_range n) := by
    rw [not_not]
    exact ⟨hmin, by omega⟩
  have hzero : t.freq symbol = 0 →
      ArithmeticEncoder.write n (.raw t.toRaw) symbol s = .error .zeroFrequency := by
    intro hf
    have heq : t.cum symbol = t.cum (symbol + 1) := by
      rw [cum_succ, hf]
      omega
    rw [ArithmeticEncoder.write, ArithmeticCoderBase.update, if_neg hstate, if_neg hrcheck,
        checkedView_total t, except_bind_ok, checkedView_get_low t hsym, except_bind_ok,
        checkedView_get_high t hsym, except_bind_ok, if_pos heq]
  have hbig : 0 < t.freq symbol → maximum_total n < t.cum t.symbol_limit →
      ArithmeticEncoder.write n (.raw t.toRaw) symbol s = .error .totalTooLarge := by
    intro hf htl
    have hne : ¬ t.cum symbol = t.cum (symbol + 1) := by
      rw [cum_succ]
      omega
    rw [ArithmeticEncoder.write, ArithmeticCoderBase.update, if_neg hstate, if_neg hrcheck,
        checkedView_total t, except_bind_ok, checkedView_get_low t hsym, except_bind_ok,
        checkedView_get_high t hsym, except_bind_ok, if_neg hne,
        if_pos (by omega : t.cum t.symbol_limit > maximum_total n)]
  refine ⟨⟨?_, ?_⟩, hzero, hbig⟩
  · intro ⟨htmax, hfreq⟩
    obtain ⟨s', hrun, _⟩ := encoder_update_ok hn t symbol s hsym hfreq htmax hl hh1 hh2 hmin
    exact ⟨s', hrun⟩
  · intro ⟨s', hok⟩
    by_contra hc
    rcases Nat.eq_zero_or_pos (t.freq symbol) with hf | hf
    · rw [hzero hf] at hok
      exact absurd hok (by simp)
    · have htl : maximum_total n < t.cum t.symbol_limit := by
        by_contra hle
        push_neg at hle
        exact hc ⟨hle, hf⟩
      rw [hbig hf htl] at hok
      exact absurd hok (by simp)

/-- C6 witness: a successful write, a zero-frequency failure, and a
total of exactly `maximum_total + 1` failing with the total-too-large
error, all on the fresh 32-bit encoder state. -/
theorem write_succeeds_iff_witness :
    (∃ s', ArithmeticEncoder.write 32
        (.raw ({ symbol_limit := 2, freq := fun _ => 1 } : FrequencyTable).toRaw) 0
        (CoderState.mk 0 (state_mask 32) (EncoderExt.mk (BitOutputStream.mk [] 0 0) 0)) =
        .ok s') ∧
    (ArithmeticEncoder.write 32
        (.raw ({ symbol_limit := 2, freq := fun s => if s = 0 then 0 else 1 } :
          FrequencyTable).toRaw) 0
        (CoderState.mk 0 (state_mask 32) (EncoderExt.mk (BitOutputStream.mk [] 0 0) 0)) =
        .error .zeroFrequency) ∧
    (ArithmeticEncoder.write 32
        (.raw ({ symbol_limit := 1, freq := fun _ => maximum_total 32 + 1 } :
          FrequencyTable).toRaw) 0
        (CoderState.mk 0 (state_mask 32) (EncoderExt.mk (BitOutputStream.mk [] 0 0) 0)) =
        .error .totalTooLarge) :=
  ⟨(write_succeeds_iff _ 0 _ (by norm_num) (by decide) (by decide) (by decide) (by decide)
      (by decide)).1.mp ⟨by decide, by decide⟩,
   (write_succeeds_iff _ 0 _ (by norm_num) (by decide) (by decide) (by decide) (by decide)
      (by decide)).2.1 (by decide),
   (write_succeeds_iff _ 0 _ (by norm_num) (by decide) (by decide) (by decide) (by decide)
      (by decide)).2.2 (by decide) (by decide)⟩

/-! ## C10: write and read always go through CheckedFrequencyTable -/

theorem except_bind_error {ε α β : Type} (e : ε) (f : α → Except ε β) :
    (Except.error e >>= f : Except ε β) = .error e := rfl

theorem checkedView_total_raw (t : RawTable) {tot : Int} (h : t.get_total = .ok tot)
    (h0 : 0 ≤ tot) : (PyFreqTable.raw t).checkedView.get_total = .ok tot.toNat := by
  simp only [PyFreqTable.checkedView]
  unfold CheckedFrequencyTable.get_total
  rw [h, except_bind_ok, if_neg (by omega)]
  rfl

theorem checkedView_total_raw_neg (t : RawTable) {tot : Int} (h : t.get_total = .ok tot)
    (h0 : tot < 0) :
    (PyFreqTable.raw t).checkedView.get_total = .error .negativeTotalFrequency := by
  simp only [PyFreqTable.checkedView]
  unfold CheckedFrequencyTable.get_total
  rw [h, except_bind_ok, if_pos h0]
  rfl

theorem checked_in_range_true (t : RawTable) {symbol lim : Int}
    (hlim : t.get_symbol_limit = .ok lim) (hlim0 : 0 < lim) (h0 : 0 ≤ symbol)
    (hsym : symbol < lim) :
    CheckedFrequencyTable.is_symbol_in_range t symbol = .ok true := by
  unfold CheckedFrequencyTable.is_symbol_in_range CheckedFrequencyTable.get_symbol_limit
  rw [hlim, except_bind_ok, if_neg (by omega)]
  simp [h0, hsym]
  rfl

theorem checkedView_get_low_raw_violation (t : RawTable) {symbol : Nat} {lim lo hi tot : Int}
    (hlim : t.get_symbol_limit = .ok lim) (hlim0 : 0 < lim) (hsym : (symbol : Int) < lim)
    (hlo : t.get_low symbol = .ok lo) (hhi : t.get_high symbol = .ok hi)
    (htot : t.get_total = .ok tot)
    (hbad : ¬ (0 ≤ lo ∧ lo ≤ hi ∧ hi ≤ tot)) :
    (PyFreqTable.raw t).checkedView.get_low symbol = .error .lowCumulativeOutOfRange := by
  simp only [PyFreqTable.checkedView]
  unfold CheckedFrequencyTable.get_low
  rw [checked_in_range_true t hlim hlim0 (Int.natCast_nonneg _) hsym, except_bind_ok,
      if_pos rfl, hlo, except_bind_ok, hhi, except_bind_ok, htot, except_bind_ok,
      if_pos hbad]
  rfl

/-- C10: `write` and `read` route every frequency-table query through a
CheckedFrequencyTable in every run (the only condition at lines 131 and
176 is whether the argument already is one, in which case it is used as
is — the queries are checked either way); the wrapper re-validates the
table (positive symbol limit, `0 ≤ low ≤ high ≤ total`, non-negative
totals) with explicit `raise AssertionError` statements, so a
contract-violating table makes `write`/`read` fail with an
AssertionError before `low`, `high` or `code` are updated with
inconsistent values (the error return carries no updated coder state). -/
theorem write_read_always_checked :
    (∀ (n : Nat) (t : RawTable) (symbol : Nat) (s : CoderState EncoderExt),
      ArithmeticEncoder.write n (.raw t) symbol s =
        ArithmeticCoderBase.update n (encoderOps n) (PyFreqTable.raw t).checkedView symbol s ∧
      ArithmeticEncoder.write n (.checked t) symbol s =
        ArithmeticEncoder.write n (.raw t) symbol s) ∧
    (∀ (n : Nat) (t : RawTable) (s : CoderState DecoderExt),
      ArithmeticDecoder.read n (.raw t) s = ArithmeticDecoder.read n (.checked t) s) ∧
    (∀ (n : Nat) (t : RawTable) (symbol : Nat) (s : CoderState EncoderExt)
        (lim lo hi tot : Int),
      s.low < half_range n → half_range n ≤ s.high → s.high < full_range n →
      minimum_range n ≤ s.high - s.low + 1 → 1 ≤ n →
      t.get_symbol_limit = .ok lim → 0 < lim → (symbol : Int) < lim →
      t.get_low symbol = .ok lo → t.get_high symbol = .ok hi → t.get_total = .ok tot →
      0 ≤ tot → ¬ (0 ≤ lo ∧ lo ≤ hi ∧ hi ≤ tot) →
      ArithmeticEncoder.write n (.raw t) symbol s = .error .lowCumulativeOutOfRange ∧
      PyErr.isAssertionError .lowCumulativeOutOfRange = true) ∧
    (∀ (n : Nat) (t : RawTable) (s : CoderState DecoderExt) (tot : Int),
      t.get_total = .ok tot → tot < 0 →
      ArithmeticDecoder.read n (.raw t) s = .error .negativeTotalFrequency ∧
      PyErr.isAssertionError .negativeTotalFrequency = true) := by
  refine ⟨fun n t symbol s => ⟨rfl, rfl⟩, fun n t s => rfl, ?_, ?_⟩
  · intro n t symbol s lim lo hi tot hl hh1 hh2 hmin hn hlim hlim0 hsym hlo hhi htot htot0 hbad
    have hstate : ¬ (s.low ≥ s.high ∨ s.low &&& state_mask n ≠ s.low ∨
        s.high &&& state_mask n ≠ s.high) := by
      have hHF : half_range n < full_range n := by
        rw [full_range_eq, half_range_eq hn]
        exact Nat.pow_lt_pow_right one_lt_two (by omega)
      push_neg
      refine ⟨lt_of_lt_of_le hl hh1, ?_, ?_⟩
      · rw [and_state_mask]
        exact Nat.mod_eq_of_lt (by rw [← full_range_eq]; omega)
      · rw [and_state_mask]
        exact Nat.mod_eq_of_lt (by rw [← full_range_eq]; exact hh2)
    have hrcheck : ¬ ¬ (minimum_range n ≤ s.high - s.low + 1 ∧
        s.high - s.low + 1 ≤ full_range n) := by
      rw [not_not]
      exact ⟨hmin, by omega⟩
    refine ⟨?_, rfl⟩
    rw [ArithmeticEncoder.write, ArithmeticCoderBase.update, if_neg hstate, if_neg hrcheck,
        checkedView_total_raw t htot htot0, except_bind_ok,
        checkedView_get_low_raw_violation t hlim hlim0 hsym hlo hhi htot hbad,
        except_bind_error]
  · intro n t s tot htot htot0
    refine ⟨?_, rfl⟩
    rw [ArithmeticDecoder.read]
    rw [show ((PyFreqTable.raw t).checkedView.get_total >>= fun total =>
        (if total > maximum_total n then (Except.error PyErr.totalTooLarge :
          PyResult (Nat × CoderState DecoderExt)) else _) : PyResult (Nat × CoderState DecoderExt)) =
        Except.error PyErr.negativeTotalFrequency from ?_]
    rw [checkedView_total_raw_neg t htot htot0, except_bind_error]

/-- A misbehaving table: `get_low(0) = 5 > 3 = get_high(0)`. -/
def c10_bad_table : RawTable :=
  { get_symbol_limit := .ok 1, get := fun _ => .ok 1, get_total := .ok 10,
    get_low := fun _ => .ok 5, get_high := fun _ => .ok 3 }

/-- A misbehaving table with a negative total. -/
def c10_neg_total_table : RawTable :=
  { get_symbol_limit := .ok 1, get := fun _ => .ok 1, get_total := .ok (-7),
    get_low := fun _ => .ok 0, get_high := fun _ => .ok 1 }

/-- C10 witness: a table whose cumulative bounds are inconsistent makes
`write` fail with the checked wrapper's AssertionError, and a table
with a negative total makes `read` fail likewise. -/
theorem write_read_always_checked_witness :
    (ArithmeticEncoder.write 32 (.raw c10_bad_table) 0
        (CoderState.mk 0 (state_mask 32) (EncoderExt.mk (BitOutputStream.mk [] 0 0) 0)) =
      .error .lowCumulativeOutOfRange ∧
      PyErr.isAssertionError .lowCumulativeOutOfRange = true) ∧
    (ArithmeticDecoder.read 32 (.raw c10_neg_total_table)
        (CoderState.mk 0 (state_mask 32) (DecoderExt.mk 0 (BitInputStream.init []))) =
      .error .negativeTotalFrequency ∧
      PyErr.isAssertionError .negativeTotalFrequency = true) :=
  ⟨write_read_always_checked.2.2.1 32 c10_bad_table 0
      (CoderState.mk 0 (state_mask 32) (EncoderExt.mk (BitOutputStream.mk [] 0 0) 0))
      1 5 3 10 (by decide) (by decide) (by decide) (by decide) (by norm_num)
      rfl (by norm_num) (by decide) rfl rfl rfl (by norm_num) (by norm_num),
   write_read_always_checked.2.2.2 32 c10_neg_total_table
      (CoderState.mk 0 (state_mask 32) (DecoderExt.mk 0 (BitInputStream.init [])))
      (-7) rfl (by norm_num)⟩

/-! ## C4: functional correctness of ArithmeticDecoder.read -/

theorem natCast_fdiv (a b : Nat) : ((a : Int)).fdiv (b : Int) = ((a / b : Nat) : Int) := by
  rw [Int.fdiv_eq_tdiv (Int.natCast_nonneg _) (Int.natCast_nonneg _)]
  exact (Int.ofNat_tdiv _ _).symm

/-- The binary search returns `(sym, sym + 1)` where `sym` is a symbol
whose cumulative interval contains `value`, whenever the fuel covers
the interval width and `value` lies between the cumulative bounds of
the interval. -/
theorem search_spec (t : FrequencyTable) (value : Int) :
    ∀ (fuel start e : Nat), start < e → e ≤ t.symbol_limit →
      (t.cum start : Int) ≤ value → value < (t.cum e : Int) →
      e - start ≤ fuel →
      ∃ sym, ArithmeticDecoder.search (PyFreqTable.raw t.toRaw).checkedView value fuel start e =
          .ok (sym, sym + 1) ∧
        sym < t.symbol_limit ∧
        (t.cum sym : Int) ≤ value ∧ value < (t.cum (sym + 1) : Int) := by
  intro fuel
  induction fuel with
  | zero =>
    intro start e hse hel hlo hhi hfuel
    exfalso
    omega
  | succ fuel ih =>
    intro start e hse hel hlo hhi hfuel
    by_cases hg : e - start > 1
    · have hmid : (start + e) >>> 1 = (start + e) / 2 := Nat.shiftRight_one _
      have hm1 : start < (start + e) / 2 := by
        have := @Nat.le_div_iff_mul_le 2 (start + 1) (start + e) (by omega)
        omega
      have hm2 : (start + e) / 2 < e := by
        have := @Nat.div_lt_iff_lt_mul 2 (start + e) e (by omega)
        omega
      have hmlim : (start + e) / 2 < t.symbol_limit := by omega
      rw [ArithmeticDecoder.search, if_pos hg, hmid]
      dsimp only
      rw [checkedView_get_low t hmlim]
      dsimp only
      by_cases hbr : (t.cum ((start + e) / 2) : Int) > value
      · rw [if_pos hbr]
        exact ih start ((start + e) / 2) hm1 (by omega) hlo hbr (by omega)
      · rw [if_neg hbr]
        exact ih ((start + e) / 2) e hm2 hel (by omega) hhi (by omega)
    · have he1 : e = start + 1 := by omega
      subst he1
      rw [ArithmeticDecoder.search, if_neg hg]
      exact ⟨start, rfl, by omega, hlo, hhi⟩

theorem value_lt_total {o R T : Nat} (hT : 0 < T) (hR : 0 < R) (hoR : o < R) :
    ((o + 1) * T - 1) / R < T := by
  rw [Nat.div_lt_iff_lt_mul hR]
  have hmul : (o + 1) * T ≤ R * T := Nat.mul_le_mul_right T (by omega)
  have hpos1 : 1 ≤ (o + 1) * T := Nat.succ_le_of_lt (Nat.mul_pos (by omega) hT)
  have hcomm : R * T = T * R := mul_comm R T
  omega

theorem value_mul_div_le {o R T : Nat} (hT : 0 < T) :
    (((o + 1) * T - 1) / R) * R / T ≤ o := by
  have h1 : (((o + 1) * T - 1) / R) * R ≤ (o + 1) * T - 1 := Nat.div_mul_le_self _ _
  have h2 : (((o + 1) * T - 1) / R) * R / T ≤ ((o + 1) * T - 1) / T :=
    Nat.div_le_div_right h1
  have h3 : ((o + 1) * T - 1) / T = o := by
    have he : (o + 1) * T - 1 = T - 1 + T * o := by
      have : (o + 1) * T = T * o + T := by ring
      omega
    rw [he, Nat.add_mul_div_left _ _ hT, Nat.div_eq_of_lt (by omega)]
    omega
  omega

theorem upper_div_bound {o R T X : Nat} (hT : 0 < T) (hR : 0 < R)
    (h : ((o + 1) * T - 1) / R < X) : o < X * R / T := by
  have h1 : (o + 1) * T - 1 < X * R := (Nat.div_lt_iff_lt_mul hR).mp h
  have hpos1 : 1 ≤ (o + 1) * T := Nat.succ_le_of_lt (Nat.mul_pos (by omega) hT)
  have h2 : (o + 1) * T ≤ X * R := by omega
  have h3 : o + 1 ≤ X * R / T := (Nat.le_div_iff_mul_le hT).mpr h2
  omega

theorem lower_div_bound {o R T lo v : Nat} (hlo : lo ≤ v)
    (hva : v * R / T ≤ o) : lo * R / T ≤ o :=
  le_trans (Nat.div_le_div_right (Nat.mul_le_mul_right R hlo)) hva

/-- C4: for every contract-conforming frequency table with
`0 < total <= maximum_total` and every decoder state satisfying the
coder invariants with `low <= code <= high`, `ArithmeticDecoder.read`
succeeds: with `offset = code - low`, `range = high - low + 1` and
`value = ((offset + 1) * total - 1) // range` (floor division; a Nat
here, so `0 <= value` holds by construction, and the theorem gives
`value < total`), the returned symbol is passed through `update`
(second conjunct), satisfies `get_low(symbol) = cum symbol <= value <
cum (symbol + 1) = get_high(symbol)`, and is the largest symbol with
`get_low(symbol) <= value` (last conjunct). All inline asserts of the
source pass, since the `.ok` equation can only be produced through
them. -/
theorem read_functional_correct {n : Nat} (t : FrequencyTable) (s : CoderState DecoderExt)
    (hn : 1 ≤ n)
    (htot_pos : 0 < t.cum t.symbol_limit)
    (htmax : t.cum t.symbol_limit ≤ maximum_total n)
    (hl : s.low < half_range n) (hh1 : half_range n ≤ s.high) (hh2 : s.high < full_range n)
    (hmin : minimum_range n ≤ s.high - s.low + 1)
    (hc1 : s.low ≤ s.ext.code) (hc2 : s.ext.code ≤ s.high) :
    ∃ sym s',
      ArithmeticDecoder.read n (.raw t.toRaw) s = .ok (sym, s') ∧
      ArithmeticCoderBase.update n (decoderOps n) (PyFreqTable.raw t.toRaw).checkedView
        sym s = .ok s' ∧
      sym < t.symbol_limit ∧
      ((s.ext.code - s.low + 1) * t.cum t.symbol_limit - 1) / (s.high - s.low + 1)
          < t.cum t.symbol_limit ∧
      t.cum sym ≤
        ((s.ext.code - s.low + 1) * t.cum t.symbol_limit - 1) / (s.high - s.low + 1) ∧
      ((s.ext.code - s.low + 1) * t.cum t.symbol_limit - 1) / (s.high - s.low + 1)
          < t.cum (sym + 1) ∧
      (∀ k, k < t.symbol_limit →
        t.cum k ≤ ((s.ext.code - s.low + 1) * t.cum t.symbol_limit - 1) /
          (s.high - s.low + 1) →
        k ≤ sym) := by
  have hlow_high : s.low ≤ s.high := le_trans hl.le hh1
  have hlim : 0 < t.symbol_limit := by
    rcases Nat.eq_zero_or_pos t.symbol_limit with h0 | h
    · rw [h0] at htot_pos
      exact absurd htot_pos (Nat.lt_irrefl 0)
    · exact h
  have hRpos : 0 < s.high - s.low + 1 := by omega
  have hOR : s.ext.code - s.low < s.high - s.low + 1 := by omega
  have hvT : ((s.ext.code - s.low + 1) * t.cum t.symbol_limit - 1) / (s.high - s.low + 1)
      < t.cum t.symbol_limit := value_lt_total htot_pos hRpos hOR
  have hass1 : (((s.ext.code - s.low + 1) * t.cum t.symbol_limit - 1) /
        (s.high - s.low + 1)) * (s.high - s.low + 1) / t.cum t.symbol_limit
      ≤ s.ext.code - s.low := value_mul_div_le htot_pos
  have hcum0 : t.cum 0 = 0 := rfl
  obtain ⟨sym, hsearch, hsymlim, hsymlo, hsymhi⟩ :=
    search_spec t
      ((((s.ext.code - s.low + 1) * t.cum t.symbol_limit - 1) /
        (s.high - s.low + 1) : Nat) : Int)
      t.symbol_limit 0 t.symbol_limit hlim (le_refl _)
      (by rw [hcum0]; exact_mod_cast Nat.zero_le _)
      (by exact_mod_cast hvT) (le_refl _)
  have hsymlo' : t.cum sym ≤
      ((s.ext.code - s.low + 1) * t.cum t.symbol_limit - 1) / (s.high - s.low + 1) := by
    exact_mod_cast hsymlo
  have hsymhi' : ((s.ext.code - s.low + 1) * t.cum t.symbol_limit - 1) /
      (s.high - s.low + 1) < t.cum (sym + 1) := by
    exact_mod_cast hsymhi
  have hfreqpos : 0 < t.freq sym := by
    have := cum_succ t sym
    omega
  have hA : t.cum sym * (s.high - s.low + 1) / t.cum t.symbol_limit ≤
      s.ext.code - s.low := lower_div_bound hsymlo' hass1
  have hB : s.ext.code - s.low <
      t.cum (sym + 1) * (s.high - s.low + 1) / t.cum t.symbol_limit :=
    upper_div_bound htot_pos hRpos hsymhi'
  have habs : ∀ D : Nat, D ≤ s.ext.code - s.low → s.low + D ≤ s.ext.code := by
    intro D hD
    omega
  have habs2 : ∀ X : Nat, s.ext.code - s.low < X → s.ext.code ≤ s.low + X - 1 := by
    intro X hX
    omega
  have hcode1 : ArithmeticCoderBase.narrowedLow s.low (s.high - s.low + 1)
      (t.cum sym) (t.cum t.symbol_limit) ≤ s.ext.code := habs _ hA
  have hcode2 : s.ext.code ≤ ArithmeticCoderBase.narrowedHigh s.low (s.high - s.low + 1)
      (t.cum (sym + 1)) (t.cum t.symbol_limit) := habs2 _ hB
  obtain ⟨s₂, hupd, _h1, _h2, _h3, _h4, _h5, _h6, hcp1, hcp2⟩ :=
    decoder_update_ok hn t sym s hsymlim hfreqpos htmax hl hh1 hh2 hmin hcode1 hcode2
  have hpos1 : 1 ≤ (s.ext.code - s.low + 1) * t.cum t.symbol_limit :=
    Nat.succ_le_of_lt (Nat.mul_pos (by omega) htot_pos)
  have hoeq : (s.ext.code : Int) - (s.low : Int) = ((s.ext.code - s.low : Nat) : Int) := by
    omega
  have hReq : (s.high : Int) - (s.low : Int) + 1 = ((s.high - s.low + 1 : Nat) : Int) := by
    omega
  have hnumeq : (((s.ext.code - s.low : Nat) : Int) + 1) * ((t.cum t.symbol_limit : Nat) : Int)
      - 1 = (((s.ext.code - s.low + 1) * t.cum t.symbol_limit - 1 : Nat) : Int) := by
    rw [Nat.cast_sub hpos1]
    push_cast
    ring
  refine ⟨sym, s₂, ?_, hupd, hsymlim, hvT, hsymlo', hsymhi', ?_⟩
  · unfold ArithmeticDecoder.read
    dsimp only
    rw [checkedView_total t, except_bind_ok]
    rw [hoeq, hReq, hnumeq]
    simp only [natCast_fdiv, ← Nat.cast_mul]
    rw [checkedView_limit t hlim, except_bind_ok]
    rw [hsearch, except_bind_ok]
    dsimp only
    rw [checkedView_get_low t hsymlim, except_bind_ok,
      checkedView_get_high t hsymlim, except_bind_ok]
    rw [hupd, except_bind_ok]
    split
    · rename_i h
      exact absurd h (not_lt.mpr htmax)
    split
    · rename_i h
      exact absurd (by exact_mod_cast hass1) h
    split
    · rename_i h
      refine absurd ⟨?_, ?_⟩ h
      · exact Int.natCast_nonneg _
      · exact_mod_cast hvT
    split
    · rename_i h
      exact absurd rfl h
    split
    · rename_i h
      refine absurd ⟨?_, ?_⟩ h
      · exact_mod_cast hA
      · exact_mod_cast hB
    split
    · rename_i h
      exact absurd ⟨hcp1, hcp2⟩ h
    rfl
  · intro k hk hck
    by_contra hgt
    push_neg at hgt
    have hmono : t.cum (sym + 1) ≤ t.cum k := t.cum_mono (by omega)
    omega

/-- A concrete contract-conforming table for exercising `read`:
2 symbols with frequencies 2 and 3 (total 5 <= maximum_total 4 = 6). -/
def c4_table : FrequencyTable := ⟨2, fun s => if s = 0 then 2 else 3⟩

/-- A concrete decoder state for exercising `read` at numbits 4:
low 0, high 15, code 7, exhausted input stream. -/
def c4_state : CoderState DecoderExt :=
  CoderState.mk 0 15 (DecoderExt.mk 7 (BitInputStream.init []))

theorem read_functional_correct_witness :
    ∃ sym s',
      ArithmeticDecoder.read 4 (.raw c4_table.toRaw) c4_state = .ok (sym, s') ∧
      ArithmeticCoderBase.update 4 (decoderOps 4) (PyFreqTable.raw c4_table.toRaw).checkedView
        sym c4_state = .ok s' ∧
      sym < c4_table.symbol_limit ∧
      ((c4_state.ext.code - c4_state.low + 1) * c4_table.cum c4_table.symbol_limit - 1) /
          (c4_state.high - c4_state.low + 1)
          < c4_table.cum c4_table.symbol_limit ∧
      c4_table.cum sym ≤
        ((c4_state.ext.code - c4_state.low + 1) * c4_table.cum c4_table.symbol_limit - 1) /
          (c4_state.high - c4_state.low + 1) ∧
      ((c4_state.ext.code - c4_state.low + 1) * c4_table.cum c4_table.symbol_limit - 1) /
          (c4_state.high - c4_state.low + 1)
          < c4_table.cum (sym + 1) ∧
      (∀ k, k < c4_table.symbol_limit →
        c4_table.cum k ≤
          ((c4_state.ext.code - c4_state.low + 1) * c4_table.cum c4_table.symbol_limit - 1) /
            (c4_state.high - c4_state.low + 1) →
        k ≤ sym) :=
  read_functional_correct c4_table c4_state (by decide) (by decide) (by decide) (by decide)
    (by decide) (by decide) (by decide) (by decide) (by decide)

/-! ## The PPM model (ppmmodel.py) and the compressor's symbol encoding
(ppm-compress.py)

`PpmModel.Context` holds a `SimpleFrequencyTable` and an optional list
of optional child contexts (ppmmodel.py lines 53-57).  The Python list
of `Optional[Context]` values is embedded as the bespoke mutual type
`CtxList` (a cons-list whose entries are either absent or a context),
because a nested `List (Option ...)` occurrence cannot be recursed over
structurally here; `CtxList.get?`, `CtxList.set` and
`CtxList.replicateNone` mirror `list.__getitem__` (None on
out-of-range index stands for Python's IndexError), item assignment and
`[None] * symbols`. -/

mutual
inductive SubCtxs where
  /-- Python `self.subcontexts = None` (leaf context). -/
  | none : SubCtxs
  /-- Python `self.subcontexts = [None] * symbols` (inner context). -/
  | some (l : CtxList) : SubCtxs
inductive CtxList where
  | nil : CtxList
  /-- A `None` entry. -/
  | consNone (tl : CtxList) : CtxList
  /-- A materialized child context. -/
  | consSome (c : PpmContext) (tl : CtxList) : CtxList
inductive PpmContext where
  /-- PpmModel.Context (ppmmodel.py lines 53-57). -/
  | mk (frequencies : SimpleFrequencyTable) (subcontexts : SubCtxs) : PpmContext
end

def PpmContext.frequencies : PpmContext → SimpleFrequencyTable
  | .mk f _ => f

def PpmContext.subcontexts : PpmContext → SubCtxs
  | .mk _ s => s

/-- `subctxs[sym]`: `Option.none` models an IndexError (index past the
end), `Option.some Option.none` a `None` entry. -/
def CtxList.get? : CtxList → Nat → Option (Option PpmContext)
  | .nil, _ => Option.none
  | .consNone _, 0 => Option.some Option.none
  | .consSome c _, 0 => Option.some (Option.some c)
  | .consNone tl, n + 1 => CtxList.get? tl n
  | .consSome _ tl, n + 1 => CtxList.get? tl n

/-- `subctxs[sym] = ctx` (out-of-range index leaves the list unchanged;
the embedding only uses it after a successful `get?`). -/
def CtxList.set : CtxList → Nat → PpmContext → CtxList
  | .nil, _, _ => .nil
  | .consNone tl, 0, c => .consSome c tl
  | .consSome _ tl, 0, c => .consSome c tl
  | .consNone tl, n + 1, c => .consNone (CtxList.set tl n c)
  | .consSome d tl, n + 1, c => .consSome d (CtxList.set tl n c)

/-- `[None] * symbols` (ppmmodel.py line 57). -/
def CtxList.replicateNone : Nat → CtxList
  | 0 => .nil
  | n + 1 => .consNone (CtxList.replicateNone n)

mutual
/-- `p` holds of the frequency table of every materialized context in
the tree rooted at the given context. -/
def PpmContext.allB (p : SimpleFrequencyTable → Bool) : PpmContext → Bool
  | .mk f subs => p f && SubCtxs.allB p subs
def SubCtxs.allB (p : SimpleFrequencyTable → Bool) : SubCtxs → Bool
  | .none => true
  | .some l => CtxList.allB p l
def CtxList.allB (p : SimpleFrequencyTable → Bool) : CtxList → Bool
  | .nil => true
  | .consNone tl => CtxList.allB p tl
  | .consSome c tl => PpmContext.allB p c && CtxList.allB p tl
end

/-- The context-creation idiom shared by `PpmModel.__init__` (ppmmodel.py
lines 22-23) and `PpmModel.increment_contexts` (lines 44-45):
`Context(symbols, hassubctx)` — whose constructor builds
`SimpleFrequencyTable([0] * symbols)` — immediately followed by
`.frequencies.increment(escapesymbol)`. -/
def PpmContext.newWithEscape (symbols : Nat) (hassubctx : Bool) (escape : Nat) :
    PyResult PpmContext :=
  match SimpleFrequencyTable.fromList (List.replicate symbols 0) with
  | .error e => .error e
  | .ok ft =>
    let p := ft.increment (escape : Int)
    match p.1 with
    | .error e => .error e
    | .ok _ =>
      .ok (.mk p.2 (if hassubctx then SubCtxs.some (CtxList.replicateNone symbols)
        else SubCtxs.none))

/-- PpmModel (ppmmodel.py lines 12-26).  `symbol_limit` and
`escape_symbol` are embedded as `Nat` (they are validated as
non-negative ints); `model_order` stays `Int` because `-1` is legal. -/
structure PpmModel where
  model_order : Int
  symbol_limit : Nat
  escape_symbol : Nat
  root_context : Option PpmContext
  order_minus1_freqs : FlatFrequencyTable

/-- PpmModel.__init__ (ppmmodel.py lines 14-26): validation (the
`0 <= escapesymbol` half of the check is automatic for a `Nat`), the
root context with its escape-symbol increment when `order >= 0`, and
the flat order -1 table. -/
def PpmModel.init (order : Int) (symbollimit escapesymbol : Nat) : PyResult PpmModel :=
  if order < -1 ∨ (symbollimit : Int) ≤ 0 ∨ ¬ (escapesymbol < symbollimit) then
    .error .ppmValueError
  else
    match (if 0 ≤ order then
        (PpmContext.newWithEscape symbollimit (decide (1 ≤ order)) escapesymbol).map
          Option.some
      else .ok Option.none : PyResult (Option PpmContext)) with
    | .error e => .error e
    | .ok root =>
      match FlatFrequencyTable.init (symbollimit : Int) with
      | .error e => .error e
      | .ok flat =>
        .ok { model_order := order, symbol_limit := symbollimit,
              escape_symbol := escapesymbol, root_context := root,
              order_minus1_freqs := flat }

/-- One iteration of the outer loop of `PpmModel.increment_contexts`
(ppmmodel.py lines 36-48): walk the given history suffix from the given
context, materializing missing children (each new child's escape slot
is incremented at creation, lines 44-45), and increment `symbol` in the
table of the final context.  Mutation of the shared tree is modeled by
rebuilding the path; an error return abandons the loop's partial
mutations (such an error is only reachable when the Python code would
raise midway, which no theorem below relies on). -/
def PpmContext.incrementPath (slimit : Nat) (morder : Int) (escape symbol : Nat) :
    List Nat → Nat → PpmContext → PyResult PpmContext
  | [], _, ctx =>
    let p := ctx.frequencies.increment (symbol : Int)
    match p.1 with
    | .error e => .error e
    | .ok _ => .ok (.mk p.2 ctx.subcontexts)
  | sym :: rest, depth, ctx =>
    match ctx.subcontexts with
    | SubCtxs.none => .error .assertFailed
    | SubCtxs.some subctxs =>
      match subctxs.get? sym with
      | Option.none => .error .indexError
      | Option.some osub =>
        match (match osub with
          | Option.none =>
            PpmContext.newWithEscape slimit (decide ((depth : Int) + 1 < morder)) escape
          | Option.some c => .ok c : PyResult PpmContext) with
        | .error e => .error e
        | .ok child =>
          match PpmContext.incrementPath slimit morder escape symbol rest (depth + 1) child with
          | .error e => .error e
          | .ok child' => .ok (.mk ctx.frequencies (SubCtxs.some (subctxs.set sym child')))

/-- PpmModel.increment_contexts (ppmmodel.py lines 29-48): early return
for order -1 models, validation (the `0 <= symbol` half is automatic
for a `Nat`), then for each `order` in `range(len(history) + 1)` walk
the suffix `history[len(history) - order : ]` from the root and
increment.  `root_context` being `None` here (impossible via
`PpmModel.init`) models Python's AttributeError on `ctx.subcontexts`. -/
def PpmModel.increment_contexts (m : PpmModel) (history : List Nat) (symbol : Nat) :
    PyResult PpmModel :=
  if m.model_order = -1 then .ok m
  else if (history.length : Int) > m.model_order ∨ ¬ (symbol < m.symbol_limit) then
    .error .ppmValueError
  else
    match m.root_context with
    | Option.none => .error .attributeError
    | Option.some root0 =>
      match (List.range (history.length + 1)).foldlM
          (fun root order => PpmContext.incrementPath m.symbol_limit m.model_order
            m.escape_symbol symbol (history.drop (history.length - order)) 0 root) root0 with
      | .error e => .error e
      | .ok root' => .ok { m with root_context := Option.some root' }

/-- The per-table invariant behind C2: the escape/EOF slot `e` holds
frequency exactly 1. -/
def eofOneP (e : Nat) : SimpleFrequencyTable → Bool :=
  fun ft => decide (ft.get (e : Int) = .ok 1)

/-- Every materialized context in the tree has frequency exactly 1 at
symbol `e`. -/
def PpmContext.eofOne (e : Nat) (c : PpmContext) : Bool :=
  PpmContext.allB (eofOneP e) c

/-- The root context (when present) has frequency exactly 1 at the
model's escape symbol in every materialized context. -/
def PpmModel.rootEofOne (m : PpmModel) : Bool :=
  match m.root_context with
  | Option.none => true
  | Option.some c => PpmContext.eofOne m.escape_symbol c

/-- One `enc.write(table, symbol)` call issued by `encode_symbol`
(ppm-compress.py lines 80, 83, 85): either on a context's
SimpleFrequencyTable or on the order -1 flat table. -/
inductive WriteCall where
  | ctxWrite (t : SimpleFrequencyTable) (symbol : Nat)
  | orderM1Write (t : FlatFrequencyTable) (symbol : Nat)
deriving DecidableEq, Repr

/-- The inner loop of `encode_symbol` (ppm-compress.py lines 73-77):
walk the history suffix; `.ok Option.none` is the `break` on a `None`
child (the `for`'s `else` clause is skipped), errors model the
`assert ctx.subcontexts is not None` and an out-of-range index. -/
def followPath : PpmContext → List Nat → PyResult (Option PpmContext)
  | ctx, [] => .ok (Option.some ctx)
  | ctx, sym :: rest =>
    match ctx.subcontexts with
    | SubCtxs.none => .error .assertFailed
    | SubCtxs.some subctxs =>
      match subctxs.get? sym with
      | Option.none => .error .indexError
      | Option.some Option.none => .ok Option.none
      | Option.some (Option.some c) => followPath c rest

/-- The outer loop of `encode_symbol` (ppm-compress.py lines 70-85) over
the given descending list of orders, recording each `enc.write` call in
order.  The `symbol != 256` test short-circuits: for symbol 256 the
frequency lookup is never made.  A `None` root models Python's
AttributeError (first on `ctx.subcontexts`, or on `ctx.frequencies` at
order 0). -/
def encodeFrom (m : PpmModel) (history : List Nat) (symbol : Nat) :
    List Nat → PyResult (List WriteCall)
  | [] => .ok [WriteCall.orderM1Write m.order_minus1_freqs symbol]
  | order :: rest =>
    match m.root_context with
    | Option.none => .error .attributeError
    | Option.some root =>
      match followPath root (history.drop (history.length - order)) with
      | .error e => .error e
      | .ok Option.none => encodeFrom m history symbol rest
      | .ok (Option.some ctx) =>
        if symbol = 256 then
          match encodeFrom m history symbol rest with
          | .error e => .error e
          | .ok calls => .ok (WriteCall.ctxWrite ctx.frequencies 256 :: calls)
        else
          match ctx.frequencies.get (symbol : Int) with
          | .error e => .error e
          | .ok f =>
            if f > 0 then .ok [WriteCall.ctxWrite ctx.frequencies symbol]
            else
              match encodeFrom m history symbol rest with
              | .error e => .error e
              | .ok calls => .ok (WriteCall.ctxWrite ctx.frequencies 256 :: calls)

/-- encode_symbol (ppm-compress.py lines 65-85) as the ordered list of
`enc.write` calls it makes: orders are visited in
`reversed(range(len(history) + 1))`, and after the loop the symbol is
written with the order -1 table. -/
def encode_symbol_calls (m : PpmModel) (history : List Nat) (symbol : Nat) :
    PyResult (List WriteCall) :=
  encodeFrom m history symbol ((List.range (history.length + 1)).reverse)

/-- `SimpleFrequencyTable.increment` at symbol `s` leaves the stored
frequency of any other symbol `e` unchanged (whether or not the call
succeeds). -/
theorem simple_increment_preserves_get (ft : SimpleFrequencyTable) (s e : Int) (hne : s ≠ e) :
    ((ft.increment s).2).get e = ft.get e := by
  unfold SimpleFrequencyTable.increment SimpleFrequencyTable.check_symbol
  by_cases hc : (0 ≤ s ∧ s < (ft.frequencies.length : Int))
  · rw [if_pos hc]
    dsimp only
    unfold SimpleFrequencyTable.get SimpleFrequencyTable.check_symbol
    dsimp only
    rw [List.length_set]
    by_cases hce : (0 ≤ e ∧ e < (ft.frequencies.length : Int))
    · simp only [if_pos hce]
      rw [except_bind_ok, except_bind_ok]
      have hne' : s.toNat ≠ e.toNat := by omega
      rw [List.getD_eq_getElem?_getD, List.getD_eq_getElem?_getD,
        List.getElem?_set_ne hne', List.getD_eq_getElem?_getD]
    · simp only [if_neg hce]
      rfl
  · rw [if_neg hc]

/-- If every context in a `CtxList` satisfies `allB p` and index `n`
holds a materialized context, that context satisfies `allB p`. -/
theorem CtxList.allB_get? (p : SimpleFrequencyTable → Bool) :
    ∀ (l : CtxList) (n : Nat) (c : PpmContext),
      CtxList.allB p l = true → CtxList.get? l n = Option.some (Option.some c) →
      PpmContext.allB p c = true
  | .nil, n, c => by
    intro _ h
    rw [CtxList.get?] at h
    exact absurd h (by simp)
  | .consNone tl, 0, c => by
    intro _ h
    rw [CtxList.get?] at h
    exact absurd h (by simp)
  | .consNone tl, n + 1, c => by
    intro ha h
    rw [CtxList.allB] at ha
    rw [CtxList.get?] at h
    exact CtxList.allB_get? p tl n c ha h
  | .consSome d tl, 0, c => by
    intro ha h
    rw [CtxList.allB] at ha
    rw [CtxList.get?] at h
    rw [Bool.and_eq_true] at ha
    obtain rfl : d = c := by
      injection h with h1
      injection h1
    exact ha.1
  | .consSome d tl, n + 1, c => by
    intro ha h
    rw [CtxList.allB] at ha
    rw [Bool.and_eq_true] at ha
    rw [CtxList.get?] at h
    exact CtxList.allB_get? p tl n c ha.2 h

/-- Updating an entry of an all-good `CtxList` with an all-good context
keeps the list all-good. -/
theorem CtxList.allB_set (p : SimpleFrequencyTable → Bool) :
    ∀ (l : CtxList) (n : Nat) (c : PpmContext),
      CtxList.allB p l = true → PpmContext.allB p c = true →
      CtxList.allB p (CtxList.set l n c) = true
  | .nil, _, _ => by
    intro ha _
    rw [CtxList.set]
    exact ha
  | .consNone tl, 0, c => by
    intro ha hc
    rw [CtxList.allB] at ha
    rw [CtxList.set, CtxList.allB, Bool.and_eq_true]
    exact ⟨hc, ha⟩
  | .consSome d tl, 0, c => by
    intro ha hc
    rw [CtxList.allB, Bool.and_eq_true] at ha
    rw [CtxList.set, CtxList.allB, Bool.and_eq_true]
    exact ⟨hc, ha.2⟩
  | .consNone tl, n + 1, c => by
    intro ha hc
    rw [CtxList.allB] at ha
    rw [CtxList.set, CtxList.allB]
    exact CtxList.allB_set p tl n c ha hc
  | .consSome d tl, n + 1, c => by
    intro ha hc
    rw [CtxList.allB, Bool.and_eq_true] at ha
    rw [CtxList.set, CtxList.allB, Bool.and_eq_true]
    exact ⟨ha.1, CtxList.allB_set p tl n c ha.2 hc⟩

/-- A list of `None` entries is trivially all-good. -/
theorem CtxList.allB_replicateNone (p : SimpleFrequencyTable → Bool) :
    ∀ n, CtxList.allB p (CtxList.replicateNone n) = true
  | 0 => by rw [CtxList.replicateNone, CtxList.allB]
  | n + 1 => by
    rw [CtxList.replicateNone, CtxList.allB]
    exact CtxList.allB_replicateNone p n

/-- A freshly created context (creation immediately followed by the
escape-symbol increment) has frequency exactly 1 at the escape symbol
and satisfies the whole-tree invariant. -/
theorem newWithEscape_eofOne (symbols : Nat) (hass : Bool) (e : Nat) (c : PpmContext)
    (h : PpmContext.newWithEscape symbols hass e = .ok c) :
    PpmContext.eofOne e c = true := by
  unfold PpmContext.newWithEscape SimpleFrequencyTable.fromList at h
  simp only [List.length_replicate] at h
  by_cases h1 : symbols < 1
  · rw [if_pos h1] at h
    exact absurd h (by simp)
  rw [if_neg h1] at h
  have hany : (List.replicate symbols (0 : Int)).any (fun f => f < 0) = false := by simp
  rw [hany] at h
  rw [if_neg Bool.false_ne_true] at h
  dsimp only at h
  unfold SimpleFrequencyTable.increment SimpleFrequencyTable.check_symbol at h
  dsimp only at h
  simp only [List.length_replicate] at h
  by_cases he : (0 ≤ (e : Int) ∧ (e : Int) < (symbols : Int))
  · rw [if_pos he] at h
    dsimp only at h
    injection h with h2
    subst h2
    unfold PpmContext.eofOne
    rw [PpmContext.allB, Bool.and_eq_true]
    constructor
    · have hlt : e < symbols := by omega
      simp [eofOneP, SimpleFrequencyTable.get, SimpleFrequencyTable.check_symbol,
        List.length_set, List.length_replicate, he, List.getD_eq_getElem?_getD,
        List.getElem?_set_self, List.getElem?_replicate, hlt]
    · cases hass
      · rw [if_neg Bool.false_ne_true]
        rw [SubCtxs.allB]
      · rw [if_pos rfl]
        rw [SubCtxs.allB]
        exact CtxList.allB_replicateNone (eofOneP e) symbols
  · rw [if_neg he] at h
    exact absurd h (by simp)

/-- One path walk of `increment_contexts` preserves the frequency-1
invariant at symbol `esc` in every materialized context, provided the
incremented symbol is not `esc`: interior tables are untouched, the
final table is incremented at `symbol ≠ esc`, and newly created
contexts carry their creation-time escape increment. -/
theorem incrementPath_preserves_eofOne (slimit : Nat) (morder : Int) (esc symbol : Nat)
    (hne : symbol ≠ esc) :
    ∀ (path : List Nat) (depth : Nat) (ctx ctx' : PpmContext),
      PpmContext.eofOne esc ctx = true →
      PpmContext.incrementPath slimit morder esc symbol path depth ctx = .ok ctx' →
      PpmContext.eofOne esc ctx' = true := by
  intro path
  induction path with
  | nil =>
    intro depth ctx ctx' hctx h
    unfold PpmContext.incrementPath at h
    dsimp only at h
    rcases hp : (ctx.frequencies.increment (symbol : Int)).1 with perr | punit
    · rw [hp] at h
      simp at h
    · rw [hp] at h
      injection h with h2
      subst h2
      cases ctx with
      | mk f subs =>
        unfold PpmContext.eofOne at hctx ⊢
        rw [PpmContext.allB, Bool.and_eq_true] at hctx
        rw [PpmContext.allB, Bool.and_eq_true]
        constructor
        · have hpres := simple_increment_preserves_get f (symbol : Int) (esc : Int)
            (by exact_mod_cast hne)
          simp only [eofOneP, PpmContext.frequencies, decide_eq_true_eq] at hctx ⊢
          rw [hpres]
          exact hctx.1
        · simp only [PpmContext.subcontexts]
          exact hctx.2
  | cons sym rest ih =>
    intro depth ctx ctx' hctx h
    unfold PpmContext.incrementPath at h
    cases ctx with
    | mk f subs =>
      rw [PpmContext.subcontexts] at h
      cases subs with
      | none => simp at h
      | some l =>
        dsimp only at h
        unfold PpmContext.eofOne at hctx ⊢
        rw [PpmContext.allB, Bool.and_eq_true] at hctx
        rw [SubCtxs.allB] at hctx
        rcases hg : l.get? sym with _ | osub
        · rw [hg] at h
          simp at h
        · rw [hg] at h
          rcases osub with _ | c0
          · dsimp only at h
            rcases hnw : PpmContext.newWithEscape slimit
                (decide ((depth : Int) + 1 < morder)) esc with err | child
            · rw [hnw] at h
              simp at h
            · rw [hnw] at h
              dsimp only at h
              rcases hrec : PpmContext.incrementPath slimit morder esc symbol rest
                  (depth + 1) child with err2 | child'
              · rw [hrec] at h
                simp at h
              · rw [hrec] at h
                injection h with h2
                subst h2
                have hchild : PpmContext.eofOne esc child = true :=
                  newWithEscape_eofOne _ _ _ _ hnw
                have hchild' := ih (depth + 1) child child' hchild hrec
                rw [PpmContext.allB, Bool.and_eq_true]
                rw [SubCtxs.allB]
                exact ⟨hctx.1, CtxList.allB_set _ l sym child' hctx.2 hchild'⟩
          · dsimp only at h
            rcases hrec : PpmContext.incrementPath slimit morder esc symbol rest
                (depth + 1) c0 with err2 | child'
            · rw [hrec] at h
              simp at h
            · rw [hrec] at h
              injection h with h2
              subst h2
              have hchild : PpmContext.eofOne esc c0 = true :=
                CtxList.allB_get? _ l sym c0 hctx.2 hg
              have hchild' := ih (depth + 1) c0 child' hchild hrec
              rw [PpmContext.allB, Bool.and_eq_true]
              rw [SubCtxs.allB]
              exact ⟨hctx.1, CtxList.allB_set _ l sym child' hctx.2 hchild'⟩

/-- The whole outer loop of `increment_contexts` (the fold over orders)
preserves the frequency-1 invariant at `esc`. -/
theorem foldIncr_preserves_eofOne (slimit : Nat) (morder : Int) (esc symbol : Nat)
    (hne : symbol ≠ esc) (hist : List Nat) :
    ∀ (orders : List Nat) (root root' : PpmContext),
      PpmContext.eofOne esc root = true →
      orders.foldlM (fun r o => PpmContext.incrementPath slimit morder esc symbol
        (hist.drop (hist.length - o)) 0 r) root = .ok root' →
      PpmContext.eofOne esc root' = true := by
  intro orders
  induction orders with
  | nil =>
    intro root root' hroot h
    rw [List.foldlM_nil] at h
    injection h with h2
    subst h2
    exact hroot
  | cons o rest ih =>
    intro root root' hroot h
    rw [List.foldlM_cons] at h
    obtain ⟨mid, hmid, hrest⟩ := bind_ok_elim h
    exact ih mid root'
      (incrementPath_preserves_eofOne slimit morder esc symbol hne _ 0 root mid hroot hmid)
      hrest

/-- `PpmModel.increment_contexts` with a non-escape symbol preserves the
frequency-1 invariant at the escape symbol in every materialized
context, and leaves every other model field unchanged. -/
theorem increment_contexts_preserves_eofOne (m m' : PpmModel) (history : List Nat)
    (symbol : Nat) (hne : symbol ≠ m.escape_symbol)
    (hroot : m.rootEofOne = true)
    (h : m.increment_contexts history symbol = .ok m') :
    m'.rootEofOne = true ∧ m'.order_minus1_freqs = m.order_minus1_freqs ∧
      m'.escape_symbol = m.escape_symbol ∧ m'.symbol_limit = m.symbol_limit ∧
      m'.model_order = m.model_order := by
  unfold PpmModel.increment_contexts at h
  by_cases h1 : m.model_order = -1
  · rw [if_pos h1] at h
    injection h with h2
    subst h2
    exact ⟨hroot, rfl, rfl, rfl, rfl⟩
  rw [if_neg h1] at h
  by_cases h2 : ((history.length : Int) > m.model_order ∨ ¬ (symbol < m.symbol_limit))
  · rw [if_pos h2] at h
    simp at h
  rw [if_neg h2] at h
  rcases hr : m.root_context with _ | root0
  · rw [hr] at h
    simp at h
  rw [hr] at h
  dsimp only at h
  rcases hf : (List.range (history.length + 1)).foldlM
      (fun root order => PpmContext.incrementPath m.symbol_limit m.model_order
        m.escape_symbol symbol (history.drop (history.length - order)) 0 root) root0
      with err | root'
  · rw [hf] at h
    simp at h
  rw [hf] at h
  injection h with h2
  subst h2
  have hroot0 : PpmContext.eofOne m.escape_symbol root0 = true := by
    unfold PpmModel.rootEofOne at hroot
    rw [hr] at hroot
    exact hroot
  refine ⟨?_, rfl, rfl, rfl, rfl⟩
  unfold PpmModel.rootEofOne
  exact foldIncr_preserves_eofOne m.symbol_limit m.model_order m.escape_symbol symbol
    hne history _ root0 root' hroot0 hf

/-- A successfully constructed PpmModel satisfies the frequency-1
invariant at its escape symbol (trivially when `order = -1`, and by the
root's creation-time escape increment otherwise), and its fields are
the validated constructor arguments. -/
theorem ppm_init_eofOne (order : Int) (symbollimit escapesymbol : Nat) (m : PpmModel)
    (h : PpmModel.init order symbollimit escapesymbol = .ok m) :
    m.rootEofOne = true ∧ m.order_minus1_freqs = ⟨(symbollimit : Int)⟩ ∧
      m.escape_symbol = escapesymbol ∧ m.symbol_limit = symbollimit ∧
      m.model_order = order := by
  unfold PpmModel.init at h
  by_cases hv : (order < -1 ∨ (symbollimit : Int) ≤ 0 ∨ ¬ (escapesymbol < symbollimit))
  · rw [if_pos hv] at h
    simp at h
  rw [if_neg hv] at h
  push_neg at hv
  have hflat : FlatFrequencyTable.init (symbollimit : Int) = .ok ⟨(symbollimit : Int)⟩ := by
    unfold FlatFrequencyTable.init
    rw [if_neg (by omega)]
  by_cases ho : 0 ≤ order
  · rw [if_pos ho] at h
    rcases hnw : PpmContext.newWithEscape symbollimit (decide (1 ≤ order)) escapesymbol
        with err | c
    · rw [hnw] at h
      simp [Except.map] at h
    · rw [hnw] at h
      simp only [Except.map] at h
      rw [hflat] at h
      injection h with h2
      subst h2
      refine ⟨?_, rfl, rfl, rfl, rfl⟩
      unfold PpmModel.rootEofOne
      exact newWithEscape_eofOne _ _ _ _ hnw
  · rw [if_neg ho] at h
    dsimp only at h
    rw [hflat] at h
    injection h with h2
    subst h2
    exact ⟨rfl, rfl, rfl, rfl, rfl⟩

/-- For symbol 256 the `symbol != 256` short circuit means
`encode_symbol` never takes the early return: every context write it
makes is the escape symbol 256, and the loop always falls through to
the final order -1 write of 256. -/
theorem encodeFrom_eof_escapes (m : PpmModel) (history : List Nat) :
    ∀ (orders : List Nat) (calls : List WriteCall),
      encodeFrom m history 256 orders = .ok calls →
      ∃ pre, calls = pre ++ [WriteCall.orderM1Write m.order_minus1_freqs 256] ∧
        ∀ w ∈ pre, ∃ ft, w = WriteCall.ctxWrite ft 256 := by
  intro orders
  induction orders with
  | nil =>
    intro calls h
    rw [encodeFrom] at h
    injection h with h2
    subst h2
    exact ⟨[], rfl, by simp⟩
  | cons o rest ih =>
    intro calls h
    rw [encodeFrom] at h
    rcases hr : m.root_context with _ | root
    · rw [hr] at h
      simp at h
    · rw [hr] at h
      dsimp only at h
      rcases hfp : followPath root (history.drop (history.length - o)) with err | oc
      · rw [hfp] at h
        simp at h
      · rw [hfp] at h
        rcases oc with _ | ctx
        · dsimp only at h
          exact ih calls h
        · dsimp only at h
          rw [if_pos rfl] at h
          rcases hrec : encodeFrom m history 256 rest with err | calls0
          · rw [hrec] at h
            simp at h
          · rw [hrec] at h
            injection h with h2
            subst h2
            obtain ⟨pre, hpre, hall⟩ := ih calls0 hrec
            refine ⟨WriteCall.ctxWrite ctx.frequencies 256 :: pre, ?_, ?_⟩
            · rw [hpre]
              rfl
            · intro w hw
              rcases List.mem_cons.mp hw with hw1 | hw2
              · exact ⟨ctx.frequencies, hw1⟩
              · exact hall w hw2

set_option maxRecDepth 8000 in
/-- C2 counterexample: after constructing `PpmModel(3, 257, 256)` the
root context — a context of order 0 — has frequency exactly 1 at the
EOF symbol 256, not exactly 0 as claimed: `PpmModel.__init__`
increments the escape slot of the root's table at creation
(ppmmodel.py line 23), and the escape symbol is 256 itself. -/
theorem ppm_root_eof_freq_one_not_zero :
    (PpmModel.init 3 257 256).map
        (fun m => m.root_context.map (fun c => c.frequencies.get 256)) =
      .ok (Option.some (.ok 1)) ∧ ((1 : Int) ≠ 0) :=
  ⟨rfl, by decide⟩

/-- C2 (amended): in a PpmModel with symbol_limit 257 and
escape_symbol 256, after construction and after any sequence of
`increment_contexts` calls with byte symbols in [0, 256), symbol 256
has frequency exactly 1 in the order -1 flat table and frequency
exactly 1 — not 0 — in the table of every materialized context of
order >= 0 (each context's 256 slot is incremented exactly once, at
creation, as the escape count); encoding symbol 256 still always
escapes down to order -1, because of the explicit `symbol != 256` test
in `encode_symbol`: every context write it makes is the escape symbol
256 and the call sequence always ends with the order -1 write of
256. -/
theorem ppm_eof_freq_one_and_escape :
    (∀ (order : Int) (m : PpmModel), PpmModel.init order 257 256 = .ok m →
        m.order_minus1_freqs.get 256 = .ok 1 ∧ m.rootEofOne = true ∧
        m.escape_symbol = 256) ∧
    (∀ (m m' : PpmModel) (history : List Nat) (symbol : Nat),
        symbol < 256 → m.escape_symbol = 256 → m.rootEofOne = true →
        m.increment_contexts history symbol = .ok m' →
        m'.rootEofOne = true ∧ m'.order_minus1_freqs = m.order_minus1_freqs ∧
        m'.escape_symbol = 256) ∧
    (∀ (m : PpmModel) (history : List Nat) (calls : List WriteCall),
        encode_symbol_calls m history 256 = .ok calls →
        ∃ pre, calls = pre ++ [WriteCall.orderM1Write m.order_minus1_freqs 256] ∧
          ∀ w ∈ pre, ∃ ft, w = WriteCall.ctxWrite ft 256) := by
  refine ⟨?_, ?_, ?_⟩
  · intro order m h
    obtain ⟨h1, h2, h3, _, _⟩ := ppm_init_eofOne order 257 256 m h
    refine ⟨?_, h1, h3⟩
    rw [h2]
    decide
  · intro m m' history symbol hs hesc hroot h
    have hne : symbol ≠ m.escape_symbol := by
      rw [hesc]
      omega
    obtain ⟨h1, h2, h3, _, _⟩ :=
      increment_contexts_preserves_eofOne m m' history symbol hne hroot h
    refine ⟨h1, h2, ?_⟩
    rw [h3, hesc]
  · intro m history calls h
    exact encodeFrom_eof_escapes m history _ calls h

/-- The PpmModel of ppm-compress.py line 43: `PpmModel(3, 257, 256)`
(the fallback branch is unreachable). -/
def c2_model : PpmModel :=
  match PpmModel.init 3 257 256 with
  | .ok m => m
  | .error _ => PpmModel.mk (-1) 1 0 Option.none ⟨1⟩

/-- The model after one `increment_contexts([], 65)` call (the fallback
branch is unreachable). -/
def c2_model' : PpmModel :=
  match c2_model.increment_contexts [] 65 with
  | .ok m => m
  | .error _ => PpmModel.mk (-1) 1 0 Option.none ⟨1⟩

/-- The write calls of `encode_symbol(model, [], 256, enc)` on the
fresh model (the fallback branch is unreachable). -/
def c2_calls : List WriteCall :=
  match encode_symbol_calls c2_model [] 256 with
  | .ok l => l
  | .error _ => []

set_option maxRecDepth 8000 in
theorem ppm_eof_freq_one_and_escape_witness :
    (c2_model.order_minus1_freqs.get 256 = .ok 1 ∧ c2_model.rootEofOne = true ∧
      c2_model.escape_symbol = 256) ∧
    (c2_model'.rootEofOne = true ∧
      c2_model'.order_minus1_freqs = c2_model.order_minus1_freqs ∧
      c2_model'.escape_symbol = 256) ∧
    (∃ pre, c2_calls = pre ++ [WriteCall.orderM1Write c2_model.order_minus1_freqs 256] ∧
      ∀ w ∈ pre, ∃ ft, w = WriteCall.ctxWrite ft 256) :=
  ⟨ppm_eof_freq_one_and_escape.1 3 c2_model rfl,
   ppm_eof_freq_one_and_escape.2.1 c2_model c2_model' [] 65 (by decide) rfl
     (ppm_eof_freq_one_and_escape.1 3 c2_model rfl).2.1 rfl,
   ppm_eof_freq_one_and_escape.2.2 c2_model [] c2_calls rfl⟩
